import Mathlib

/-!
Verification development for the btrfs-walk tutorial program
(`src/main.rs`).  The program bootstraps a logical→physical chunk map
from the superblock's system array, completes it by walking the chunk
tree, locates the filesystem tree's root through the root tree, and
walks the filesystem tree printing the absolute path of every regular
file.

Machine integers are modelled as `Nat`; all arithmetic the program
performs on them (offsets, sizes, 64-bit addresses) stays far below
2^64 on the inputs considered, and no operation in the modelled code
relies on wrap-around, so no explicit `% 2^64` is needed.

The repository modules `structs.rs` (on-disk record layouts),
`chunk_tree.rs` (the `ChunkTreeCache`) and `tree.rs` (header / leaf /
node parsers) are not part of the sources available here; definitions
for those parts are modelled from the spec and are marked as such in
their doc comments.  Everything else is translated from `src/main.rs`.
-/

namespace BtrfsWalk

/-! ## Byte-level primitives (little-endian readers over a byte list) -/

/-- Read one byte of a block; out-of-range indices read as 0 (the model
of dereferencing a raw pointer: in-range uses are always guarded in the
faithful paths, unguarded uses model the program's unchecked reads). -/
def readU8 (l : List Nat) (i : Nat) : Nat := l.getD i 0

/-- Little-endian u16 at byte offset `i`. -/
def readU16LE (l : List Nat) (i : Nat) : Nat :=
  readU8 l i + 0x100 * readU8 l (i+1)

/-- Little-endian u32 at byte offset `i`. -/
def readU32LE (l : List Nat) (i : Nat) : Nat :=
  readU8 l i + 0x100 * readU8 l (i+1) + 0x10000 * readU8 l (i+2) +
    0x1000000 * readU8 l (i+3)

/-- Little-endian u64 at byte offset `i`. -/
def readU64LE (l : List Nat) (i : Nat) : Nat :=
  readU32LE l i + 0x100000000 * readU32LE l (i+4)

/-- Little-endian u16 byte serialization (used to build concrete blocks). -/
def u16le (n : Nat) : List Nat := [n % 0x100, n / 0x100 % 0x100]

/-- Little-endian u32 byte serialization. -/
def u32le (n : Nat) : List Nat :=
  [n % 0x100, n / 0x100 % 0x100, n / 0x10000 % 0x100, n / 0x1000000 % 0x100]

/-- Little-endian u64 byte serialization. -/
def u64le (n : Nat) : List Nat :=
  u32le (n % 0x100000000) ++ u32le (n / 0x100000000)

/-! ## Item-type and objectid constants

Modelled from the spec: the constants named by the spec (`CHUNK_ITEM`,
`ROOT_ITEM`, `INODE_REF`, `DIR_ITEM`, `FS_TREE_OBJECTID`, regular-file
dir-item type); they live in the missing `structs.rs`.  The numeric
values are those of the on-disk btrfs format, which the spec requires
bit-exactly; only their distinctness matters below. -/

def BTRFS_CHUNK_ITEM_KEY : Nat := 228

def BTRFS_ROOT_ITEM_KEY : Nat := 132

def BTRFS_INODE_REF_KEY : Nat := 12

def BTRFS_DIR_ITEM_KEY : Nat := 84

def BTRFS_FS_TREE_OBJECTID : Nat := 5

def BTRFS_FT_REG_FILE : Nat := 1

/-! ## Record shapes -/

/-- On-disk key triple `(objectid, type, offset)`; `ty` mirrors the
source's field name for the `type` byte. -/
structure BtrfsKey where
  objectid : Nat
  ty : Nat
  offset : Nat
deriving DecidableEq, Repr

/-- Modelled from the spec: on-disk sizes of the packed records
(`structs.rs` is missing).  Key: u64 + u8 + u64. -/
def sizeOfKey : Nat := 17

/-- Modelled from the spec: header is csum(32) fsid(16) bytenr(8)
flags(8) chunk_tree_uuid(16) generation(8) owner(8) nritems(4)
level(1). -/
def sizeOfHeader : Nat := 101

/-- Modelled from the spec: leaf item descriptor = key(17) + offset(4)
+ size(4). -/
def sizeOfItem : Nat := 25

/-- Modelled from the spec: stripe = devid(8) + offset(8) +
dev_uuid(16). -/
def sizeOfStripe : Nat := 32

/-- Modelled from the spec: chunk record (with its inline first
stripe) = 48 header bytes + one stripe. -/
def sizeOfChunk : Nat := 80

/-- Modelled from the spec: inode ref = index(8) + name_len(2);
the name bytes trail it. -/
def sizeOfInodeRef : Nat := 10

/-- Modelled from the spec: dir item = location key(17) + transid(8) +
data_len(2) + name_len(2) + type(1); the name bytes trail it. -/
def sizeOfDirItem : Nat := 30

/-- Byte offset of `bytenr` inside a root item (after the 160-byte
embedded inode item and generation(8) + root_dirid(8)). -/
def rootItemBytenrOff : Nat := 176

/-! ## Chunk map (`ChunkTreeCache`)

Modelled from the spec: `chunk_tree.rs` is not among the sources.  The
spec says the map is keyed by `start`, duplicate inserts for the same
`start` are ignored (first-wins), and lookup finds the greatest
`start ≤ la` then verifies `la < start + size`. -/

structure ChunkTreeKey where
  start : Nat
  size : Nat
deriving DecidableEq, Repr

structure ChunkTreeValue where
  offset : Nat
deriving DecidableEq, Repr

abbrev ChunkTreeCache := List (ChunkTreeKey × ChunkTreeValue)

/-- Modelled from the spec: the entry with the greatest `start ≤ la`,
if any (the BTreeMap range query of the missing `chunk_tree.rs`). -/
def bestLE (la : Nat) : ChunkTreeCache → Option (ChunkTreeKey × ChunkTreeValue)
  | [] => none
  | e :: rest =>
    match bestLE la rest with
    | none => if e.1.start ≤ la then some e else none
    | some b => if e.1.start ≤ la ∧ b.1.start < e.1.start then some e else some b

/-- Modelled from the spec: `lookup(la)` — greatest `start ≤ la`,
verified to contain `la`. -/
def ChunkTreeCache.mapping_kv (c : ChunkTreeCache) (logical : Nat) :
    Option (ChunkTreeKey × ChunkTreeValue) :=
  match bestLE logical c with
  | none => none
  | some e => if logical < e.1.start + e.1.size then some e else none

/-- Modelled from the spec: `physical(la) = phys + (la − start)` for the
matching entry. -/
def ChunkTreeCache.offset (c : ChunkTreeCache) (logical : Nat) : Option Nat :=
  (ChunkTreeCache.mapping_kv c logical).map
    (fun e => e.2.offset + (logical - e.1.start))

/-- Modelled from the spec: `insert(start, size, phys)`; duplicate
inserts for the same `start` are ignored (first-wins). -/
def ChunkTreeCache.insert (c : ChunkTreeCache) (k : ChunkTreeKey)
    (v : ChunkTreeValue) : ChunkTreeCache :=
  if c.any (fun e => e.1.start == k.start) then c else c ++ [(k, v)]

/-! ## Bootstrap (`bootstrap_chunk_tree`, `src/main.rs` lines 48–110)

The byte decoding of the system array into `(key, chunk)` records is
the role of the missing `structs.rs`; the array is therefore consumed
here as the list of records it contains, each record carrying the chunk
fields `main.rs` uses (`length`, `num_stripes`, the inline first
`stripe`) plus the trailing stripes (which the source skips over but
never reads).  The running byte offset that the source's error message
reports is reconstructed from the record sizes exactly as the source
advances it.  The `"short …"` bounds failures of the byte-level loop
belong to the elided decoding step and are not modelled. -/

structure BtrfsStripe where
  devid : Nat
  offset : Nat
deriving DecidableEq, Repr

structure BtrfsChunk where
  length : Nat
  num_stripes : Nat
  stripe : BtrfsStripe
  extraStripes : List BtrfsStripe
deriving DecidableEq, Repr

structure SysChunkEntry where
  key : BtrfsKey
  chunk : BtrfsChunk
deriving DecidableEq, Repr

/-- Errors of `bootstrap_chunk_tree`: `"unknown item type={ty} in
sys_array at offset={off}"` and `"num_stripes cannot be 0"`. -/
inductive BootstrapErr where
  | unknownItemType (ty off : Nat)
  | zeroStripes
deriving DecidableEq, Repr

/-- State threaded through the bootstrap loop: the cache, the
`num_stripes` values for which the warning diagnostic was printed, and
the running byte offset into the system array. -/
structure BootstrapState where
  cache : ChunkTreeCache
  warnings : List Nat
  off : Nat
deriving DecidableEq, Repr

/-- The chunk-map entry a system-array record contributes:
`(key.offset, chunk.length) ↦ chunk.stripe.offset` (first stripe). -/
def entryOf (e : SysChunkEntry) : ChunkTreeKey × ChunkTreeValue :=
  (⟨e.key.offset, e.chunk.length⟩, ⟨e.chunk.stripe.offset⟩)

/-- One iteration of the bootstrap loop (`main.rs` lines 53–107):
reject a non-`CHUNK_ITEM` key, reject `num_stripes == 0`, warn when
`num_stripes != 1`, and insert the first-stripe mapping only when the
logical start is not already mapped. -/
def bootstrapStep (st : BootstrapState) (e : SysChunkEntry) :
    Except BootstrapErr BootstrapState :=
  if e.key.ty ≠ BTRFS_CHUNK_ITEM_KEY then
    .error (.unknownItemType e.key.ty st.off)
  else if e.chunk.num_stripes = 0 then
    .error .zeroStripes
  else
    let warnings :=
      if e.chunk.num_stripes ≠ 1 then st.warnings ++ [e.chunk.num_stripes]
      else st.warnings
    let cache :=
      if (ChunkTreeCache.offset st.cache e.key.offset).isNone then
        ChunkTreeCache.insert st.cache ⟨e.key.offset, e.chunk.length⟩
          ⟨e.chunk.stripe.offset⟩
      else st.cache
    .ok ⟨cache, warnings,
      st.off + sizeOfKey + sizeOfChunk +
        sizeOfStripe * (e.chunk.num_stripes - 1)⟩

/-- `bootstrap_chunk_tree` (`main.rs` lines 48–110) over the records of
the system array. -/
def bootstrap_chunk_tree (entries : List SysChunkEntry) :
    Except BootstrapErr BootstrapState :=
  entries.foldlM bootstrapStep ⟨[], [], 0⟩

/-! ## Chunk tree walk (`read_chunk_tree`, `src/main.rs` lines 132–178)

Tree blocks are modelled structurally: a leaf carries its items (key
plus the payload bytes the item's offset points at), an internal node
carries its `(blockptr, child block)` pointers, where the child block
stands for the `node_size` bytes the source reads at the physical
offset the cache resolves `blockptr` to.  The source reads every block
fresh from the image; the structural tree is that acyclic reading. -/

inductive ChunkNode where
  | leaf (items : List (BtrfsKey × List Nat))
  | node (children : List (Nat × ChunkNode))
deriving Repr

/-- Error of `read_chunk_tree`: `"Chunk tree node not mapped"`. -/
inductive ChunkWalkErr where
  | notMapped
deriving DecidableEq, Repr

/-- Leaf handling of `read_chunk_tree`: for every `CHUNK_ITEM` item,
interpret the payload as a `BtrfsChunk` (its `length` is the u64 at
byte 0, its first stripe's `offset` the u64 at byte 56) and insert. -/
def chunkLeafFold (cache : ChunkTreeCache)
    (items : List (BtrfsKey × List Nat)) : ChunkTreeCache :=
  items.foldl
    (fun c it =>
      if it.1.ty ≠ BTRFS_CHUNK_ITEM_KEY then c
      else ChunkTreeCache.insert c ⟨it.1.offset, readU64LE it.2 0⟩
        ⟨readU64LE it.2 56⟩)
    cache

mutual

/-- `read_chunk_tree` (`main.rs` lines 132–178). -/
def read_chunk_tree (cache : ChunkTreeCache) :
    ChunkNode → Except ChunkWalkErr ChunkTreeCache
  | .leaf items => .ok (chunkLeafFold cache items)
  | .node children => readChunkTreeChildren cache children

/-- The `for ptr in ptrs` recursion of `read_chunk_tree`: resolve each
`blockptr` through the cache (failing when unmapped) and recurse. -/
def readChunkTreeChildren (cache : ChunkTreeCache) :
    List (Nat × ChunkNode) → Except ChunkWalkErr ChunkTreeCache
  | [] => .ok cache
  | (ptr, child) :: rest =>
    match ChunkTreeCache.offset cache ptr with
    | none => .error .notMapped
    | some _ =>
      match read_chunk_tree cache child with
      | .error e => .error e
      | .ok c => readChunkTreeChildren c rest

end

mutual

/-- All chunk-map entries a chunk (sub)tree's `CHUNK_ITEM` leaf items
describe, in traversal order. -/
def chunkEntries : ChunkNode → List (ChunkTreeKey × ChunkTreeValue)
  | .leaf items =>
    items.filterMap
      (fun it =>
        if it.1.ty = BTRFS_CHUNK_ITEM_KEY then
          some (⟨it.1.offset, readU64LE it.2 0⟩, ⟨readU64LE it.2 56⟩)
        else none)
  | .node children => chunkEntriesChildren children

/-- List form of `chunkEntries` over a node's children. -/
def chunkEntriesChildren : List (Nat × ChunkNode) → List (ChunkTreeKey × ChunkTreeValue)
  | [] => []
  | (_, child) :: rest => chunkEntries child ++ chunkEntriesChildren rest

end

/-! ## Node parsing (`tree.rs`, not among the sources)

Modelled from the spec: `header(block)`, `leaf_items(block)`;
little-endian packed records, and reads that would cross the block
boundary are rejected — a leaf whose `nritems` descriptors fit and
whose every payload `[offset, offset+size)` lies inside the block
parses; one byte past the end fails. -/

structure BtrfsHeader where
  bytenr : Nat
  nritems : Nat
  level : Nat
deriving DecidableEq, Repr

/-- Leaf item descriptor: key, payload offset relative to the data area
that follows the header, payload size. -/
structure BtrfsItem where
  key : BtrfsKey
  offset : Nat
  size : Nat
deriving DecidableEq, Repr

inductive ParseErr where
  | headerShort
  | itemShort (i : Nat)
  | payloadOutOfBounds (i : Nat)
deriving DecidableEq, Repr

/-- Modelled from the spec: `header(block)` — the packed header fields;
fails when the block cannot hold a header. -/
def parse_btrfs_header (block : List Nat) : Option BtrfsHeader :=
  if sizeOfHeader ≤ block.length then
    some ⟨readU64LE block 48, readU32LE block 96, readU8 block 100⟩
  else none

/-- The packed key at byte offset `p` of a block. -/
def readKeyAt (block : List Nat) (p : Nat) : BtrfsKey :=
  ⟨readU64LE block p, readU8 block (p + 8), readU64LE block (p + 9)⟩

/-- Modelled from the spec: descriptors `i, i+1, …` (`n` remaining) of a
leaf block, each checked to fit in the block together with its declared
payload. -/
def parseLeafItemsFrom (block : List Nat) : Nat → Nat → Except ParseErr (List BtrfsItem)
  | _, 0 => .ok []
  | i, n+1 =>
    let p := sizeOfHeader + sizeOfItem * i
    if p + sizeOfItem ≤ block.length then
      let it : BtrfsItem :=
        ⟨readKeyAt block p, readU32LE block (p + 17), readU32LE block (p + 21)⟩
      if sizeOfHeader + it.offset + it.size ≤ block.length then
        match parseLeafItemsFrom block (i+1) n with
        | .ok rest => .ok (it :: rest)
        | .error e => .error e
      else .error (.payloadOutOfBounds i)
    else .error (.itemShort i)

/-- Modelled from the spec: `leaf_items(block)`. -/
def parse_btrfs_leaf (block : List Nat) : Except ParseErr (List BtrfsItem) :=
  match parse_btrfs_header block with
  | none => .error .headerShort
  | some h => parseLeafItemsFrom block 0 h.nritems

/-! ## Filesystem tree model

As for the chunk tree, blocks are modelled structurally.  A leaf item
carries its key and the block's bytes from the item's payload offset to
the end of the block: the source addresses payloads by a raw pointer
into the block and its unchecked trailing-name reads may run past the
item's declared size, so an item's reachable bytes are everything to
the block end (bytes past the block end — undefined behaviour in the
source — are unrepresentable and read as truncation here).  An
internal node's `none` child stands for a `blockptr` the chunk map
cannot resolve (`"fs tree node not mapped"`). -/

structure FsLeafItem where
  key : BtrfsKey
  payload : List Nat
deriving DecidableEq, Repr

inductive FsNode where
  | leaf (items : List FsLeafItem)
  | node (children : List (Option FsNode))
deriving Repr

structure BtrfsInodeRef where
  index : Nat
  name_len : Nat
deriving DecidableEq, Repr

/-- The `BtrfsInodeRef` a payload's leading bytes encode. -/
def parseInodeRef (payload : List Nat) : BtrfsInodeRef :=
  ⟨readU64LE payload 0, readU16LE payload 8⟩

/-- Errors of the filesystem-tree walk (`anyhow` messages in the
source): `"fs tree node not mapped"`, `"Failed to find inode_ref for
inode={n}"`, the `assert_eq!` panic, invalid UTF-8. -/
inductive WalkErr where
  | notMapped
  | refNotFound (inode : Nat)
  | assertFail
  | badUtf8
deriving DecidableEq, Repr

/-- Leaf scan of `get_inode_ref` (`main.rs` lines 250–275): first item
with `key.ty == INODE_REF` and `key.objectid == inode`; returns the
key, the parsed inode ref, and the trailing `name_len` name bytes. -/
def getInodeRefItems (inode : Nat) :
    List FsLeafItem → Option (BtrfsKey × BtrfsInodeRef × List Nat)
  | [] => none
  | it :: rest =>
    if it.key.ty ≠ BTRFS_INODE_REF_KEY then getInodeRefItems inode rest
    else if it.key.objectid = inode then
      let ir := parseInodeRef it.payload
      some (it.key, ir, (it.payload.drop sizeOfInodeRef).take ir.name_len)
    else getInodeRefItems inode rest

mutual

/-- `get_inode_ref` (`main.rs` lines 239–292): scan the filesystem tree
for the inode-ref of `inode`; a leaf scan cannot fail, an internal node
resolves each child through the chunk map (failing when unmapped) and
returns the first child's match. -/
def get_inode_ref (inode : Nat) :
    FsNode → Except WalkErr (Option (BtrfsKey × BtrfsInodeRef × List Nat))
  | .leaf items => .ok (getInodeRefItems inode items)
  | .node children => getInodeRefChildren inode children

/-- The `for ptr in ptrs` recursion of `get_inode_ref`. -/
def getInodeRefChildren (inode : Nat) :
    List (Option FsNode) → Except WalkErr (Option (BtrfsKey × BtrfsInodeRef × List Nat))
  | [] => .ok none
  | none :: _ => .error .notMapped
  | some child :: rest =>
    match get_inode_ref inode child with
    | .error e => .error e
    | .ok (some r) => .ok (some r)
    | .ok none => getInodeRefChildren inode rest

end

mutual

/-- All leaf items of a filesystem (sub)tree, in traversal order. -/
def allItems : FsNode → List FsLeafItem
  | .leaf items => items
  | .node children => allItemsChildren children

/-- List form of `allItems` over a node's children. -/
def allItemsChildren : List (Option FsNode) → List FsLeafItem
  | [] => []
  | none :: rest => allItemsChildren rest
  | some child :: rest => allItems child ++ allItemsChildren rest

end

/-! ## UTF-8

The source decodes every name with `std::str::from_utf8`, which
accepts exactly the strict UTF-8 encodings (no overlongs, no surrogate
code points, scalar values `< 0x110000`).  `utf8DecodeList` is that
validation-and-decoding over a byte list; `utf8Encode` is the encoding
a Rust `String` stores. -/

/-- A UTF-8 continuation byte. -/
def isCont (b : Nat) : Prop := 0x80 ≤ b ∧ b < 0xC0

instance (b : Nat) : Decidable (isCont b) := by
  unfold isCont; infer_instance

/-- Value bits of a continuation byte. -/
def contVal (b : Nat) : Nat := b - 0x80

/-- Decode one scalar from a lead byte `b` and the remaining bytes:
the decoded character and the bytes after its encoding, or `none` on an
ill-formed sequence (overlongs, surrogates and values above `0x10FFFF`
are rejected, as `std::str::from_utf8` does). -/
def utf8Step (b : Nat) (rest : List Nat) : Option (Char × List Nat) :=
  if b < 0x80 then some (Char.ofNat b, rest)
  else if b < 0xC2 then none
  else if b < 0xE0 then
    match rest with
    | c1 :: rest1 =>
      if isCont c1 then
        some (Char.ofNat ((b - 0xC0) * 0x40 + contVal c1), rest1)
      else none
    | [] => none
  else if b < 0xF0 then
    match rest with
    | c1 :: c2 :: rest2 =>
      if isCont c1 ∧ isCont c2 ∧ (b = 0xE0 → 0xA0 ≤ c1) ∧ (b = 0xED → c1 < 0xA0) then
        some (Char.ofNat ((b - 0xE0) * 0x1000 + contVal c1 * 0x40 + contVal c2), rest2)
      else none
    | _ => none
  else if b < 0xF5 then
    match rest with
    | c1 :: c2 :: c3 :: rest3 =>
      if isCont c1 ∧ isCont c2 ∧ isCont c3 ∧
          (b = 0xF0 → 0x90 ≤ c1) ∧ (b = 0xF4 → c1 < 0x90) then
        some (Char.ofNat ((b - 0xF0) * 0x40000 + contVal c1 * 0x1000 +
          contVal c2 * 0x40 + contVal c3), rest3)
      else none
    | _ => none
  else none

/-- Fueled scalar-by-scalar decoding; the fuel only bounds the number
of scalars, so any fuel at least the byte count is enough. -/
def utf8DecodeAux : Nat → List Nat → Option (List Char)
  | _, [] => some []
  | 0, _ :: _ => none
  | fuel+1, b :: rest =>
    match utf8Step b rest with
    | none => none
    | some (c, rest') =>
      match utf8DecodeAux fuel rest' with
      | none => none
      | some cs => some (c :: cs)

/-- Strict UTF-8 decoding of a byte list (the model of
`std::str::from_utf8`); `none` on any ill-formed sequence. -/
def utf8DecodeList (l : List Nat) : Option (List Char) :=
  utf8DecodeAux l.length l

/-- The UTF-8 encoding of one scalar value. -/
def utf8EncodeChar (c : Char) : List Nat :=
  let v := c.toNat
  if v < 0x80 then [v]
  else if v < 0x800 then [0xC0 + v / 0x40, 0x80 + v % 0x40]
  else if v < 0x10000 then
    [0xE0 + v / 0x1000, 0x80 + v / 0x40 % 0x40, 0x80 + v % 0x40]
  else
    [0xF0 + v / 0x40000, 0x80 + v / 0x1000 % 0x40, 0x80 + v / 0x40 % 0x40,
      0x80 + v % 0x40]

/-- The UTF-8 encoding of a character list (the bytes a Rust `String`
holding it stores and the program prints). -/
def utf8Encode (cs : List Char) : List Nat := (cs.map utf8EncodeChar).flatten

/-! ## Path reconstruction and the filesystem-tree walk
(`walk_fs_tree`, `src/main.rs` lines 294–369)

The source's `loop` has no bound; it is modelled with fuel, `spin`
recording that the fuel ran out (the loop would still be running). -/

/-- Result of the parent-chain loop: the finished `path_prefix`, an
abort, or fuel exhaustion. -/
inductive PathRes where
  | ok (p : List Char)
  | err (e : WalkErr)
  | spin
deriving DecidableEq, Repr

/-- The parent-chain reconstruction loop (`main.rs` lines 335–353),
one fuel unit per iteration: look up the inode-ref of `current`
(failing as the source does when it is absent), run the source's
`assert_eq!(current_key.objectid, current_inode_nr)`, stop prepending
`/` on a self-parent, otherwise decode the parent name and prepend
`name ++ "/"`, continuing at `key.offset`. -/
def build_path_loop (root_fs : FsNode) : Nat → Nat → List Char → PathRes
  | 0, _, _ => .spin
  | fuel+1, current, acc =>
    match get_inode_ref current root_fs with
    | .error e => .err e
    | .ok none => .err (.refNotFound current)
    | .ok (some (key, _, payload)) =>
      if key.objectid ≠ current then .err .assertFail
      else if key.offset = current then .ok ('/' :: acc)
      else
        match utf8DecodeList payload with
        | none => .err .badUtf8
        | some name => build_path_loop root_fs fuel key.offset (name ++ '/' :: acc)

/-- The characters of the output line prefix `filename=`. -/
def filenameTag : List Char := ['f', 'i', 'l', 'e', 'n', 'a', 'm', 'e', '=']

/-- Per-item outcome of the leaf scan of `walk_fs_tree`. -/
inductive ItemRes where
  | skip
  | emit (line : List Char)
  | fail (e : WalkErr)
  | spin
deriving DecidableEq, Repr

/-- The name bytes a dir item's unchecked trailing read yields: the
`name_len` bytes following the 30-byte dir-item record (truncated at
the block end, which the source's raw read would run past). -/
def dirNameBytes (payload : List Nat) : List Nat :=
  (payload.drop sizeOfDirItem).take (readU16LE payload 27)

/-- Handling of one leaf item by `walk_fs_tree` (`main.rs` lines
305–354): skip non-`DIR_ITEM` keys and non-regular-file entries, decode
the basename, then reconstruct the directory path starting at
`current = item.key.objectid` and emit
`filename= ++ path_prefix ++ name`. -/
def walkLeafItem (root_fs : FsNode) (fuel : Nat) (it : FsLeafItem) : ItemRes :=
  if it.key.ty ≠ BTRFS_DIR_ITEM_KEY then .skip
  else if readU8 it.payload 29 ≠ BTRFS_FT_REG_FILE then .skip
  else
    match utf8DecodeList (dirNameBytes it.payload) with
    | none => .fail .badUtf8
    | some name =>
      match build_path_loop root_fs fuel it.key.objectid [] with
      | .ok p => .emit (filenameTag ++ p ++ name)
      | .err e => .fail e
      | .spin => .spin

/-- Terminal status of a walk: finished, aborted with the source's
error, or stopped only because the loop fuel ran out. -/
inductive WalkStop where
  | done
  | fail (e : WalkErr)
  | spin
deriving DecidableEq, Repr

/-- A walk's observable outcome: the lines printed before it stopped
(printing happens during the walk, so lines before an abort remain
emitted) and how it stopped. -/
structure WalkOut where
  lines : List (List Char)
  stop : WalkStop
deriving DecidableEq, Repr

mutual

/-- `walk_fs_tree` (`main.rs` lines 294–369); `root_fs` is the
filesystem-tree root block every inode-ref lookup re-scans. -/
def walk_fs_tree (root_fs : FsNode) (fuel : Nat) : FsNode → WalkOut
  | .leaf items => walkLeafItems root_fs fuel items
  | .node children => walkChildren root_fs fuel children

/-- Leaf-item iteration of `walk_fs_tree`. -/
def walkLeafItems (root_fs : FsNode) (fuel : Nat) : List FsLeafItem → WalkOut
  | [] => ⟨[], .done⟩
  | it :: rest =>
    match walkLeafItem root_fs fuel it with
    | .skip => walkLeafItems root_fs fuel rest
    | .emit line =>
      let w := walkLeafItems root_fs fuel rest
      ⟨line :: w.lines, w.stop⟩
    | .fail e => ⟨[], .fail e⟩
    | .spin => ⟨[], .spin⟩

/-- Child iteration of `walk_fs_tree`: resolve each `blockptr` through
the chunk map (aborting when unmapped) and recurse. -/
def walkChildren (root_fs : FsNode) (fuel : Nat) : List (Option FsNode) → WalkOut
  | [] => ⟨[], .done⟩
  | none :: _ => ⟨[], .fail .notMapped⟩
  | some child :: rest =>
    match walk_fs_tree root_fs fuel child with
    | ⟨lines, .done⟩ =>
      let w := walkChildren root_fs fuel rest
      ⟨lines ++ w.lines, w.stop⟩
    | w => w

end

/-! ## Parent-chain abstraction (for the termination claim) -/

/-- One hop of the parent chain as the loop performs it: `some next`
when the iteration continues at `key.offset`, `none` when the loop
halts at this inode for any reason (lookup error, missing inode-ref,
assertion, self-parent, or a name that fails UTF-8 decoding). -/
def stepOf (root_fs : FsNode) (n : Nat) : Option Nat :=
  match get_inode_ref n root_fs with
  | .error _ => none
  | .ok none => none
  | .ok (some (key, _, payload)) =>
    if key.objectid ≠ n then none
    else if key.offset = n then none
    else
      match utf8DecodeList payload with
      | none => none
      | some _ => some key.offset

/-- The inode the loop is at after `k` completed iterations, `none`
once it has halted. -/
def chainK (root_fs : FsNode) : Nat → Nat → Option Nat
  | start, 0 => some start
  | start, k+1 =>
    match stepOf root_fs start with
    | none => none
    | some next => chainK root_fs next k

/-- One hop of the parent chain under the claim's reading, which halts
only on a self-parent or a missing inode-ref and ignores UTF-8
failures. -/
def stepOfClaim (root_fs : FsNode) (n : Nat) : Option Nat :=
  match get_inode_ref n root_fs with
  | .error _ => none
  | .ok none => none
  | .ok (some (key, _, _)) =>
    if key.offset = n then none else some key.offset

/-- Iterate of `stepOfClaim`, as `chainK`. -/
def chainKClaim (root_fs : FsNode) : Nat → Nat → Option Nat
  | start, 0 => some start
  | start, k+1 =>
    match stepOfClaim root_fs start with
    | none => none
    | some next => chainKClaim root_fs next k

/-! ## Root tree reader (`read_fs_tree_root`, `src/main.rs` lines 201–237) -/

/-- Errors of `read_fs_tree_root`: the header-parse `.expect`, `"Root
tree root is not a leaf node"`, a leaf-parse failure, `"fs tree root
not mapped"`, `"Failed to find root tree item for fs tree root"`. -/
inductive RootErr where
  | headerBad
  | notLeaf
  | leafBad (e : ParseErr)
  | fsRootNotMapped
  | noFsRootItem
deriving DecidableEq, Repr

/-- The `n` bytes a positioned read at physical offset `p` of the image
returns (the image modelled as a total byte function). -/
def readDisk (disk : Nat → Nat) (p n : Nat) : List Nat :=
  (List.range n).map (fun i => disk (p + i))

/-- Whether an item is the filesystem tree's root item:
`key.objectid == FS_TREE_OBJECTID && key.ty == ROOT_ITEM`. -/
def isFsRootItem (it : BtrfsItem) : Bool :=
  it.key.objectid == BTRFS_FS_TREE_OBJECTID && it.key.ty == BTRFS_ROOT_ITEM_KEY

/-- Item iteration of `read_fs_tree_root` (already reversed by the
caller): skip non-matching items; from the first match read the root
item's `bytenr`, resolve it through the chunk map and read a
`node_size` block there. -/
def readFsTreeRootGo (disk : Nat → Nat) (node_size : Nat)
    (cache : ChunkTreeCache) (block : List Nat) :
    List BtrfsItem → Except RootErr (List Nat)
  | [] => .error .noFsRootItem
  | it :: rest =>
    if ¬ isFsRootItem it then readFsTreeRootGo disk node_size cache block rest
    else
      let bytenr := readU64LE block (sizeOfHeader + it.offset + rootItemBytenrOff)
      match ChunkTreeCache.offset cache bytenr with
      | none => .error .fsRootNotMapped
      | some physical => .ok (readDisk disk physical node_size)

/-- `read_fs_tree_root` (`main.rs` lines 201–237): require a leaf root
block, scan its items in reverse order, use the first
`(FS_TREE_OBJECTID, ROOT_ITEM)` item's `bytenr`. -/
def read_fs_tree_root (disk : Nat → Nat) (node_size : Nat)
    (cache : ChunkTreeCache) (root_tree_root : List Nat) :
    Except RootErr (List Nat) :=
  match parse_btrfs_header root_tree_root with
  | none => .error .headerBad
  | some h =>
    if h.level ≠ 0 then .error .notLeaf
    else
      match parse_btrfs_leaf root_tree_root with
      | .error e => .error (.leafBad e)
      | .ok items =>
        readFsTreeRootGo disk node_size cache root_tree_root items.reverse

/-- The filesystem-tree leaf a parsed byte-level leaf block denotes:
each item keeps its key and the block's bytes from its payload offset
to the block end (the raw-pointer payload view of the source). -/
def leafOfBlock (block : List Nat) : Except ParseErr FsNode :=
  match parse_btrfs_leaf block with
  | .error e => .error e
  | .ok items =>
    .ok (.leaf (items.map (fun it => ⟨it.key, block.drop (sizeOfHeader + it.offset)⟩)))

/-! ## Predicates used by the statements -/

/-- Two chunk-map entries with non-overlapping intervals and distinct
starts (the well-formedness the spec's invariant asserts of the map,
which is keyed by `start`). -/
def entryR (a b : ChunkTreeKey × ChunkTreeValue) : Prop :=
  (a.1.start + a.1.size ≤ b.1.start ∨ b.1.start + b.1.size ≤ a.1.start) ∧
    a.1.start ≠ b.1.start

instance (a b : ChunkTreeKey × ChunkTreeValue) : Decidable (entryR a b) := by
  unfold entryR; infer_instance

/-- A system array whose every record has a `CHUNK_ITEM` key and a
nonzero stripe count (the records bootstrap accepts). -/
def goodArr (l : List SysChunkEntry) : Prop :=
  ∀ e ∈ l, e.key.ty = BTRFS_CHUNK_ITEM_KEY ∧ e.chunk.num_stripes ≠ 0

instance (l : List SysChunkEntry) : Decidable (goodArr l) := by
  unfold goodArr; infer_instance

/-- The `num_stripes` warnings the bootstrap loop prints over a record
list. -/
def warnsOf (l : List SysChunkEntry) : List Nat :=
  l.filterMap
    (fun e => if e.chunk.num_stripes ≠ 1 then some e.chunk.num_stripes else none)

/-- The byte offset the bootstrap loop has advanced to after a record
list. -/
def offAfter (off : Nat) (l : List SysChunkEntry) : Nat :=
  l.foldl
    (fun o e => o + sizeOfKey + sizeOfChunk + sizeOfStripe * (e.chunk.num_stripes - 1))
    off

/-- Whether two adjacent `/` occur (an empty path segment between
separators). -/
def hasDoubleSlash : List Char → Bool
  | [] => false
  | [_] => false
  | a :: b :: rest => (a == '/' && b == '/') || hasDoubleSlash (b :: rest)

/-- A name byte sequence whose successful decoding is nonempty and
slash-free (trivially holds when decoding fails, since the walk then
aborts). -/
def goodNameB (bytes : List Nat) : Bool :=
  match utf8DecodeList bytes with
  | none => true
  | some cs => !cs.isEmpty && cs.all (fun c => !(c == '/'))

/-- A name byte sequence whose successful decoding is slash-free. -/
def goodDirNameB (bytes : List Nat) : Bool :=
  match utf8DecodeList bytes with
  | none => true
  | some cs => cs.all (fun c => !(c == '/'))

/-- Every non-self-parent inode-ref name of the tree decodes (when it
decodes) to a nonempty slash-free string, and every dir-item name to a
slash-free one.  Self-parent inode-refs are exempt: the loop stops on
them before touching their name. -/
def goodTreeB (t : FsNode) : Bool :=
  (allItems t).all
    (fun it =>
      (!(it.key.ty == BTRFS_INODE_REF_KEY) || it.key.offset == it.key.objectid ||
        goodNameB ((it.payload.drop sizeOfInodeRef).take (parseInodeRef it.payload).name_len)) &&
      (!(it.key.ty == BTRFS_DIR_ITEM_KEY) || goodDirNameB (dirNameBytes it.payload)))

/-- The invariant of the loop's accumulator: no empty segment so far,
and the accumulator is empty or starts with a non-separator and ends
with a separator. -/
def accOk (acc : List Char) : Prop :=
  hasDoubleSlash acc = false ∧
    (acc = [] ∨ (acc.head? ≠ some '/' ∧ acc.getLast? = some '/'))

/-! ## Concrete inputs used by witnesses and counterexamples -/

/-- A one-entry chunk map: `[100, 150) ↦ 1000`. -/
def exCache : ChunkTreeCache := [(⟨100, 50⟩, ⟨1000⟩)]

/-- A system array whose two chunks overlap: `[100, 200)` then
`[50, 350)`. -/
def exOverlapArr : List SysChunkEntry :=
  [⟨⟨0, 228, 100⟩, ⟨100, 1, ⟨1, 5000⟩, []⟩⟩,
   ⟨⟨0, 228, 50⟩, ⟨300, 1, ⟨1, 6000⟩, []⟩⟩]

/-- A valid two-stripe record (its first stripe at 5000). -/
def exEntryA : SysChunkEntry := ⟨⟨0, 228, 100⟩, ⟨50, 2, ⟨1, 5000⟩, [⟨2, 9000⟩]⟩⟩

/-- A valid one-stripe record mapping `[200, 250)`. -/
def exEntryB : SysChunkEntry := ⟨⟨0, 228, 200⟩, ⟨50, 1, ⟨1, 6000⟩, []⟩⟩

/-- Inode-ref payload bytes: zero `index`, `name_len`, then the name. -/
def irefPayload (name : List Nat) : List Nat :=
  u64le 0 ++ u16le name.length ++ name

/-- Dir-item payload bytes with an explicit `name_len` field (zero
location key and transid, zero `data_len`, regular-file type byte). -/
def dirItemPayloadRaw (name_len : Nat) (name : List Nat) : List Nat :=
  List.replicate 25 0 ++ u16le 0 ++ u16le name_len ++ [BTRFS_FT_REG_FILE] ++ name

/-- Dir-item payload bytes whose `name_len` matches the name. -/
def dirItemPayload (name : List Nat) : List Nat :=
  dirItemPayloadRaw name.length name

/-- A filesystem-tree leaf with one regular file `b` in directory `d`
(inode 300), whose parent is the self-parent root inode 256. -/
def exTree : FsNode :=
  .leaf
    [⟨⟨300, 84, 0⟩, dirItemPayload [98]⟩,
     ⟨⟨300, 12, 256⟩, irefPayload [100]⟩,
     ⟨⟨256, 12, 256⟩, irefPayload []⟩]

/-- As `exTree`, but the inode-ref name of directory inode 300 is
empty, so the reconstructed path gains an empty segment. -/
def exC8Tree : FsNode :=
  .leaf
    [⟨⟨300, 84, 0⟩, dirItemPayload [98]⟩,
     ⟨⟨300, 12, 256⟩, irefPayload []⟩,
     ⟨⟨256, 12, 256⟩, irefPayload [100]⟩]

/-- A parent-chain cycle `300 → 301 → 300` whose inode-ref names are
invalid UTF-8 (a lone `0xFF` byte). -/
def exC10Tree : FsNode :=
  .leaf
    [⟨⟨300, 12, 301⟩, irefPayload [0xFF]⟩,
     ⟨⟨301, 12, 300⟩, irefPayload [0xFF]⟩]

/-- A parent-chain cycle `300 → 301 → 300` with valid UTF-8 names, on
which the loop runs forever. -/
def exSpinTree : FsNode :=
  .leaf
    [⟨⟨300, 12, 301⟩, irefPayload [97]⟩,
     ⟨⟨301, 12, 300⟩, irefPayload [99]⟩]

/-- Header bytes of a tree block with the given `nritems` and `level`
(all other header fields zero). -/
def hdrBytes (nritems level : Nat) : List Nat :=
  List.replicate 96 0 ++ u32le nritems ++ [level]

/-- A leaf item descriptor's bytes. -/
def itemDesc (k : BtrfsKey) (off size : Nat) : List Nat :=
  u64le k.objectid ++ [k.ty] ++ u64le k.offset ++ u32le off ++ u32le size

/-- Root-item payload bytes: `bytenr` at offset 176, everything else
zero. -/
def rootItemPayload (bytenr : Nat) : List Nat :=
  List.replicate 176 0 ++ u64le bytenr

/-- A root-tree root leaf holding two `(FS_TREE, ROOT_ITEM)` items with
`bytenr` 1000 and 2000; the reverse scan must pick the second. -/
def exRootBlock : List Nat :=
  hdrBytes 2 0 ++ itemDesc ⟨5, 132, 0⟩ 50 184 ++ itemDesc ⟨5, 132, 1⟩ 234 184 ++
    rootItemPayload 1000 ++ rootItemPayload 2000

/-- A block whose header level is 1 (not a leaf). -/
def exNotLeafBlock : List Nat := hdrBytes 0 1

/-- A chunk map resolving logical 2000 (the second root item's
`bytenr`) to physical 7777. -/
def exC4Cache : ChunkTreeCache := [(⟨2000, 100⟩, ⟨7777⟩)]

/-- An exactly-full leaf block: a regular-file `DIR_ITEM` for directory
inode 256 whose `name_len` field is 100 though only one name byte lies
inside its 31-byte payload, then a self-parent `INODE_REF` for 256
whose payload ends exactly at the block end. -/
def exFullBlock : List Nat :=
  hdrBytes 2 0 ++ itemDesc ⟨256, 84, 0⟩ 50 31 ++ itemDesc ⟨256, 12, 256⟩ 81 12 ++
    dirItemPayloadRaw 100 [98] ++ irefPayload [97, 98]

/-- As `exFullBlock`, but the second item declares one more payload
byte than the block holds. -/
def exOverBlock : List Nat :=
  hdrBytes 2 0 ++ itemDesc ⟨256, 84, 0⟩ 50 31 ++ itemDesc ⟨256, 12, 256⟩ 81 13 ++
    dirItemPayloadRaw 100 [98] ++ irefPayload [97, 98]

/-- The filesystem-tree leaf a block parses to, defaulting to an empty
leaf on a parse failure (used only on blocks proven to parse). -/
def fsLeafOfBlockD (block : List Nat) : FsNode :=
  match leafOfBlock block with
  | .ok t => t
  | .error _ => .leaf []

/-- Two chunk-map entries with non-overlapping intervals. -/
def entryNonOv (a b : ChunkTreeKey × ChunkTreeValue) : Prop :=
  a.1.start + a.1.size ≤ b.1.start ∨ b.1.start + b.1.size ≤ a.1.start

instance (a b : ChunkTreeKey × ChunkTreeValue) : Decidable (entryNonOv a b) := by
  unfold entryNonOv; infer_instance

/-- Chunk payload bytes with the given `length` (u64 at 0) and
first-stripe offset (u64 at 56); the other fields zero. -/
def chunkPayload (length stripeOff : Nat) : List Nat :=
  u64le length ++ List.replicate 40 0 ++ u64le 0 ++ u64le stripeOff

/-- A chunk-tree leaf holding one `CHUNK_ITEM` mapping `[500, 510)` to
physical 12345. -/
def exChunkLeaf : ChunkNode :=
  .leaf [(⟨0, 228, 500⟩, chunkPayload 10 12345)]

/-! # Theorems -/

/-! ## Chunk-map lookup lemmas -/

theorem bestLE_eq_none {la : Nat} {c : ChunkTreeCache}
    (h : bestLE la c = none) : ∀ e ∈ c, ¬ e.1.start ≤ la := by
  induction c with
  | nil => intro e he; simp at he
  | cons e rest ih =>
    intro f hf
    cases hbr : bestLE la rest with
    | none =>
      simp only [bestLE, hbr] at h
      by_cases hle : e.1.start ≤ la
      · simp [hle] at h
      · rcases List.mem_cons.mp hf with rfl | hfr
        · exact hle
        · exact ih hbr f hfr
    | some b =>
      simp only [bestLE, hbr] at h
      by_cases hc : e.1.start ≤ la ∧ b.1.start < e.1.start
      · rw [if_pos hc] at h; cases h
      · rw [if_neg hc] at h; cases h

theorem bestLE_eq_some {la : Nat} {c : ChunkTreeCache}
    {g : ChunkTreeKey × ChunkTreeValue} (h : bestLE la c = some g) :
    g ∈ c ∧ g.1.start ≤ la ∧ ∀ f ∈ c, f.1.start ≤ la → f.1.start ≤ g.1.start := by
  induction c generalizing g with
  | nil => simp [bestLE] at h
  | cons e rest ih =>
    cases hbr : bestLE la rest with
    | none =>
      simp only [bestLE, hbr] at h
      by_cases hle : e.1.start ≤ la
      · simp only [if_pos hle, Option.some.injEq] at h
        subst h
        refine ⟨List.mem_cons_self _ _, hle, ?_⟩
        intro f hf hfle
        rcases List.mem_cons.mp hf with rfl | hfr
        · exact le_refl _
        · exact absurd hfle (bestLE_eq_none hbr f hfr)
      · simp [hle] at h
    | some b =>
      simp only [bestLE, hbr] at h
      obtain ⟨hbmem, hble, hbge⟩ := ih hbr
      by_cases hcond : e.1.start ≤ la ∧ b.1.start < e.1.start
      · rw [if_pos hcond] at h
        cases h
        refine ⟨List.mem_cons_self _ _, hcond.1, ?_⟩
        intro f hf hfle
        rcases List.mem_cons.mp hf with rfl | hfr
        · exact le_refl _
        · exact le_trans (hbge f hfr hfle) (le_of_lt hcond.2)
      · rw [if_neg hcond] at h
        cases h
        refine ⟨List.mem_cons_of_mem _ hbmem, hble, ?_⟩
        intro f hf hfle
        rcases List.mem_cons.mp hf with rfl | hfr
        · by_contra hgt
          exact hcond ⟨hfle, by omega⟩
        · exact hbge f hfr hfle

theorem bestLE_isSome_of_mem {la : Nat} {c : ChunkTreeCache}
    {e : ChunkTreeKey × ChunkTreeValue} (hmem : e ∈ c) (hle : e.1.start ≤ la) :
    (bestLE la c).isSome := by
  cases h : bestLE la c with
  | none => exact absurd hle (bestLE_eq_none h e hmem)
  | some g => rfl

theorem entryR_symm : Symmetric entryR := by
  intro a b h
  exact ⟨h.1.symm, h.2.symm⟩

/-- With pairwise non-overlapping, distinct-start entries, the entry
containing a logical address is the lookup's result. -/
theorem mapping_kv_of_mem {c : ChunkTreeCache} (hwf : c.Pairwise entryR)
    {e : ChunkTreeKey × ChunkTreeValue} (hmem : e ∈ c) {x : Nat}
    (hlo : e.1.start ≤ x) (hhi : x < e.1.start + e.1.size) :
    ChunkTreeCache.mapping_kv c x = some e := by
  have hsome := bestLE_isSome_of_mem hmem hlo
  cases hbl : bestLE x c with
  | none => rw [hbl] at hsome; simp at hsome
  | some g =>
    obtain ⟨hgmem, hgle, hgge⟩ := bestLE_eq_some hbl
    have hge : e.1.start ≤ g.1.start := hgge e hmem hlo
    have hgeq : g = e := by
      by_contra hne
      obtain ⟨hnov, hns⟩ := hwf.forall entryR_symm hgmem hmem hne
      omega
    subst hgeq
    simp [ChunkTreeCache.mapping_kv, hbl, hhi]

/-- When no entry contains the address, lookup returns `none`. -/
theorem mapping_kv_none {c : ChunkTreeCache} {la : Nat}
    (h : ∀ e ∈ c, ¬ (e.1.start ≤ la ∧ la < e.1.start + e.1.size)) :
    ChunkTreeCache.mapping_kv c la = none := by
  unfold ChunkTreeCache.mapping_kv
  cases hbl : bestLE la c with
  | none => rfl
  | some g =>
    obtain ⟨hgmem, hgle, _⟩ := bestLE_eq_some hbl
    have hne := h g hgmem
    have h2 : ¬ la < g.1.start + g.1.size := fun hlt => hne ⟨hgle, hlt⟩
    show (if la < g.1.start + g.1.size then some g else none) = none
    rw [if_neg h2]

/-- What a successful lookup guarantees: the returned entry is a member
containing the address, and no member has a greater start at most the
address. -/
theorem mapping_kv_eq_some {c : ChunkTreeCache} {la : Nat}
    {e : ChunkTreeKey × ChunkTreeValue}
    (h : ChunkTreeCache.mapping_kv c la = some e) :
    e ∈ c ∧ e.1.start ≤ la ∧ la < e.1.start + e.1.size ∧
      ∀ f ∈ c, f.1.start ≤ la → f.1.start ≤ e.1.start := by
  unfold ChunkTreeCache.mapping_kv at h
  cases hbl : bestLE la c with
  | none => rw [hbl] at h; cases h
  | some g =>
    rw [hbl] at h
    have h' : (if la < g.1.start + g.1.size then some g else none) = some e := h
    obtain ⟨hgmem, hgle, hgge⟩ := bestLE_eq_some hbl
    by_cases hlt : la < g.1.start + g.1.size
    · rw [if_pos hlt] at h'
      cases h'
      exact ⟨hgmem, hgle, hlt, hgge⟩
    · rw [if_neg hlt] at h'; cases h'

/-- Physical translation of an address inside a well-formed map's
entry. -/
theorem offset_of_mem {c : ChunkTreeCache} (hwf : c.Pairwise entryR)
    {e : ChunkTreeKey × ChunkTreeValue} (hmem : e ∈ c) {x : Nat}
    (hlo : e.1.start ≤ x) (hhi : x < e.1.start + e.1.size) :
    ChunkTreeCache.offset c x = some (e.2.offset + (x - e.1.start)) := by
  unfold ChunkTreeCache.offset
  rw [mapping_kv_of_mem hwf hmem hlo hhi]
  rfl

/-- An address outside every entry translates to `none`. -/
theorem offset_none {c : ChunkTreeCache} {la : Nat}
    (h : ∀ e ∈ c, ¬ (e.1.start ≤ la ∧ la < e.1.start + e.1.size)) :
    ChunkTreeCache.offset c la = none := by
  unfold ChunkTreeCache.offset
  rw [mapping_kv_none h]
  rfl

/-! ## Claim C1 -/

/-- C1: for every entry of a (well-formed: pairwise non-overlapping,
distinct-start) chunk map and every logical address `x` inside the
entry's interval, the physical translation is `phys + (x − start)`;
lookup of `la` returns the entry with the greatest `start ≤ la` only
when `la < start + size`, and returns `none` otherwise. -/
theorem chunk_map_translation_and_lookup (c : ChunkTreeCache)
    (hwf : c.Pairwise entryR) :
    (∀ e ∈ c, ∀ x : Nat, e.1.start ≤ x → x < e.1.start + e.1.size →
      ChunkTreeCache.offset c x = some (e.2.offset + (x - e.1.start))) ∧
    (∀ la e, ChunkTreeCache.mapping_kv c la = some e →
      e ∈ c ∧ e.1.start ≤ la ∧ la < e.1.start + e.1.size ∧
      ∀ f ∈ c, f.1.start ≤ la → f.1.start ≤ e.1.start) ∧
    (∀ la : Nat, (∀ e ∈ c, ¬ (e.1.start ≤ la ∧ la < e.1.start + e.1.size)) →
      ChunkTreeCache.mapping_kv c la = none) :=
  ⟨fun _ hmem _ hlo hhi => offset_of_mem hwf hmem hlo hhi,
   fun _ _ h => mapping_kv_eq_some h,
   fun _ h => mapping_kv_none h⟩

/-- Witness for C1 on the concrete map `[100, 150) ↦ 1000`. -/
theorem chunk_map_translation_and_lookup_witness :
    ChunkTreeCache.offset exCache 120 = some 1020 ∧
    ChunkTreeCache.mapping_kv exCache 200 = none := by
  have h := chunk_map_translation_and_lookup exCache (by decide)
  constructor
  · have h1 := h.1 (⟨100, 50⟩, ⟨1000⟩) (by decide) 120 (by decide) (by decide)
    simpa using h1
  · exact h.2.2 200 (by decide)

/-! ## Bootstrap lemmas -/

/-- An insert result is a sublist of the cache with the pair
appended. -/
theorem insert_sublist (c : ChunkTreeCache) (k : ChunkTreeKey)
    (v : ChunkTreeValue) :
    (ChunkTreeCache.insert c k v).Sublist (c ++ [(k, v)]) := by
  unfold ChunkTreeCache.insert
  split
  · exact List.sublist_append_left _ _
  · exact List.Sublist.refl _

/-- A successful bootstrap step leaves the cache unchanged or inserts
the record's entry. -/
theorem bootstrapStep_ok_cache {st0 : BootstrapState} {e : SysChunkEntry}
    {s1 : BootstrapState} (h : bootstrapStep st0 e = .ok s1) :
    s1.cache = st0.cache ∨
      s1.cache = ChunkTreeCache.insert st0.cache ⟨e.key.offset, e.chunk.length⟩
        ⟨e.chunk.stripe.offset⟩ := by
  unfold bootstrapStep at h
  split at h
  · cases h
  · split at h
    · cases h
    · simp only [Except.ok.injEq] at h
      subst h
      by_cases h3 : (ChunkTreeCache.offset st0.cache e.key.offset).isNone
      · right; simp [h3]
      · left; simp [h3]

/-- The cache after a successful bootstrap fold is a sublist of the
initial cache followed by the records' entries. -/
theorem foldlM_bootstrap_sublist (l : List SysChunkEntry) :
    ∀ (st0 st : BootstrapState), List.foldlM bootstrapStep st0 l = .ok st →
      st.cache.Sublist (st0.cache ++ l.map entryOf) := by
  induction l with
  | nil =>
    intro st0 st h
    simp only [List.foldlM_nil, pure, Except.pure, Except.ok.injEq] at h
    subst h
    simp
  | cons e rest ih =>
    intro st0 st h
    rw [List.foldlM_cons] at h
    cases hstep : bootstrapStep st0 e with
    | error err => rw [hstep] at h; simp [Bind.bind, Except.bind] at h
    | ok s1 =>
      rw [hstep] at h
      simp only [Bind.bind, Except.bind] at h
      have hsub1 : s1.cache.Sublist (st0.cache ++ [entryOf e]) := by
        rcases bootstrapStep_ok_cache hstep with hc | hc
        · rw [hc]; exact List.sublist_append_left _ _
        · rw [hc]; exact insert_sublist _ _ _
      have h2 := ih s1 st h
      have h3 := h2.trans (hsub1.append_right (rest.map entryOf))
      simpa using h3

/-- Bootstrap's cache is a sublist of the system array's entries. -/
theorem bootstrap_cache_sublist {l : List SysChunkEntry} {st : BootstrapState}
    (h : bootstrap_chunk_tree l = .ok st) :
    st.cache.Sublist (l.map entryOf) := by
  have := foldlM_bootstrap_sublist l ⟨[], [], 0⟩ st h
  simpa using this

/-! ## Chunk-tree-walk lemmas -/

/-- The leaf fold of `read_chunk_tree` produces a sublist of the cache
followed by the leaf's chunk entries. -/
theorem chunkLeafFold_sublist (items : List (BtrfsKey × List Nat)) :
    ∀ cache : ChunkTreeCache,
      (chunkLeafFold cache items).Sublist (cache ++ chunkEntries (.leaf items)) := by
  induction items with
  | nil => intro cache; simp [chunkLeafFold, chunkEntries]
  | cons it rest ih =>
    intro cache
    by_cases hty : it.1.ty = BTRFS_CHUNK_ITEM_KEY
    · have h1 : chunkLeafFold cache (it :: rest) =
          chunkLeafFold (ChunkTreeCache.insert cache ⟨it.1.offset, readU64LE it.2 0⟩
            ⟨readU64LE it.2 56⟩) rest := by
        simp [chunkLeafFold, hty]
      have h2 : chunkEntries (.leaf (it :: rest)) =
          (⟨it.1.offset, readU64LE it.2 0⟩, (⟨readU64LE it.2 56⟩ : ChunkTreeValue)) ::
            chunkEntries (.leaf rest) := by
        simp [chunkEntries, hty]
      rw [h1, h2]
      have h3 := ih (ChunkTreeCache.insert cache ⟨it.1.offset, readU64LE it.2 0⟩
        ⟨readU64LE it.2 56⟩)
      have h4 := (insert_sublist cache ⟨it.1.offset, readU64LE it.2 0⟩
        ⟨readU64LE it.2 56⟩).append_right (chunkEntries (.leaf rest))
      have h5 := h3.trans h4
      simpa using h5
    · have h1 : chunkLeafFold cache (it :: rest) = chunkLeafFold cache rest := by
        simp [chunkLeafFold, hty]
      have h2 : chunkEntries (.leaf (it :: rest)) = chunkEntries (.leaf rest) := by
        simp [chunkEntries, hty]
      rw [h1, h2]
      exact ih cache

mutual

/-- A successful chunk-tree walk returns a sublist of the initial cache
followed by the tree's chunk entries. -/
theorem read_chunk_tree_sublist :
    ∀ {cache : ChunkTreeCache} {t : ChunkNode} {c' : ChunkTreeCache},
      read_chunk_tree cache t = .ok c' → c'.Sublist (cache ++ chunkEntries t)
  | cache, .leaf items, c', h => by
    simp only [read_chunk_tree, Except.ok.injEq] at h
    subst h
    exact chunkLeafFold_sublist items cache
  | cache, .node children, c', h => by
    simp only [read_chunk_tree] at h
    have := readChunkTreeChildren_sublist h
    simpa [chunkEntries] using this

/-- As `read_chunk_tree_sublist`, over a child list. -/
theorem readChunkTreeChildren_sublist :
    ∀ {cache : ChunkTreeCache} {l : List (Nat × ChunkNode)} {c' : ChunkTreeCache},
      readChunkTreeChildren cache l = .ok c' →
      c'.Sublist (cache ++ chunkEntriesChildren l)
  | cache, [], c', h => by
    simp only [readChunkTreeChildren, Except.ok.injEq] at h
    subst h
    simp
  | cache, (ptr, child) :: rest, c', h => by
    simp only [readChunkTreeChildren] at h
    cases hofs : ChunkTreeCache.offset cache ptr with
    | none => rw [hofs] at h; cases h
    | some p =>
      rw [hofs] at h
      cases hrec : read_chunk_tree cache child with
      | error e => rw [hrec] at h; cases h
      | ok c1 =>
        rw [hrec] at h
        have h1 := read_chunk_tree_sublist hrec
        have h2 := readChunkTreeChildren_sublist h
        have h3 := h2.trans (h1.append_right (chunkEntriesChildren rest))
        have h4 : (cache ++ chunkEntries child) ++ chunkEntriesChildren rest =
            cache ++ chunkEntriesChildren ((ptr, child) :: rest) := by
          simp [chunkEntriesChildren]
        rw [h4] at h3
        exact h3

end

/-! ## Claim C6 -/

/-- C6: with a `CHUNK_ITEM` key, bootstrap of a record fails exactly on
`num_stripes = 0`; `num_stripes = 1` is accepted with no diagnostic;
`num_stripes > 1` is accepted after the warning diagnostic; every
accepted record's inserted entry carries the first stripe's offset
(`entryOf e`, which ignores the trailing stripes). -/
theorem bootstrap_num_stripes_cases (e : SysChunkEntry)
    (hty : e.key.ty = BTRFS_CHUNK_ITEM_KEY) :
    (e.chunk.num_stripes = 0 → bootstrap_chunk_tree [e] = .error .zeroStripes) ∧
    (e.chunk.num_stripes = 1 →
      bootstrap_chunk_tree [e] = .ok ⟨[entryOf e], [], sizeOfKey + sizeOfChunk⟩) ∧
    (1 < e.chunk.num_stripes →
      bootstrap_chunk_tree [e] =
        .ok ⟨[entryOf e], [e.chunk.num_stripes],
          sizeOfKey + sizeOfChunk + sizeOfStripe * (e.chunk.num_stripes - 1)⟩) := by
  refine ⟨fun h0 => ?_, fun h1 => ?_, fun h2 => ?_⟩
  · simp [bootstrap_chunk_tree, List.foldlM_cons, bootstrapStep, hty, h0,
      Bind.bind, Except.bind]
  · simp [bootstrap_chunk_tree, List.foldlM_cons, List.foldlM_nil, bootstrapStep,
      hty, h1, Bind.bind, Except.bind, pure, Except.pure, ChunkTreeCache.offset,
      ChunkTreeCache.mapping_kv, bestLE, ChunkTreeCache.insert, entryOf]
  · have h0 : e.chunk.num_stripes ≠ 0 := by omega
    have h1 : e.chunk.num_stripes ≠ 1 := by omega
    simp [bootstrap_chunk_tree, List.foldlM_cons, List.foldlM_nil, bootstrapStep,
      hty, h0, h1, Bind.bind, Except.bind, pure, Except.pure, ChunkTreeCache.offset,
      ChunkTreeCache.mapping_kv, bestLE, ChunkTreeCache.insert, entryOf]

/-- Witness for C6 at concrete records with 0, 1 and 2 stripes. -/
theorem bootstrap_num_stripes_cases_witness :
    bootstrap_chunk_tree [⟨⟨0, 228, 7⟩, ⟨5, 0, ⟨1, 9⟩, []⟩⟩] = .error .zeroStripes ∧
    bootstrap_chunk_tree [exEntryB] =
      .ok ⟨[(⟨200, 50⟩, ⟨6000⟩)], [], 97⟩ ∧
    bootstrap_chunk_tree [exEntryA] =
      .ok ⟨[(⟨100, 50⟩, ⟨5000⟩)], [2], 129⟩ := by
  refine ⟨?_, ?_, ?_⟩
  · exact (bootstrap_num_stripes_cases ⟨⟨0, 228, 7⟩, ⟨5, 0, ⟨1, 9⟩, []⟩⟩ rfl).1 rfl
  · exact (bootstrap_num_stripes_cases exEntryB rfl).2.1 rfl
  · exact (bootstrap_num_stripes_cases exEntryA rfl).2.2 (by decide)

/-! ## Claim C3 (counterexample and amended statement) -/

/-- C3 counterexample: `exOverlapArr`'s two records both pass bootstrap
(the second start, 50, is below the first entry's interval, so the
`offset … .isNone` guard passes), leaving two distinct entries whose
intervals `[100, 200)` and `[50, 350)` overlap. -/
theorem chunk_map_overlap_after_bootstrap_cex :
    bootstrap_chunk_tree exOverlapArr =
      .ok ⟨[(⟨100, 100⟩, ⟨5000⟩), (⟨50, 300⟩, ⟨6000⟩)], [], 194⟩ ∧
    ¬ entryNonOv (⟨100, 100⟩, (⟨5000⟩ : ChunkTreeValue))
      ((⟨50, 300⟩, (⟨6000⟩ : ChunkTreeValue))) := by
  exact ⟨rfl, by decide⟩

/-- C3 amended: after bootstrap, and after a chunk-tree walk, the map's
intervals are pairwise non-overlapping *provided* the supplied chunk
records describe pairwise non-overlapping intervals (for the walk:
together with the cache it starts from); the code itself does not
enforce non-overlap. -/
theorem chunk_map_nonoverlap_amended :
    (∀ (l : List SysChunkEntry) (st : BootstrapState),
      bootstrap_chunk_tree l = .ok st →
      (l.map entryOf).Pairwise entryNonOv → st.cache.Pairwise entryNonOv) ∧
    (∀ (cache : ChunkTreeCache) (t : ChunkNode) (c' : ChunkTreeCache),
      read_chunk_tree cache t = .ok c' →
      (cache ++ chunkEntries t).Pairwise entryNonOv →
      c'.Pairwise entryNonOv) := by
  constructor
  · intro l st h hpw
    exact List.Pairwise.sublist (bootstrap_cache_sublist h) hpw
  · intro cache t c' h hpw
    exact List.Pairwise.sublist (read_chunk_tree_sublist h) hpw

/-- Witness for the amended C3 on concrete non-overlapping inputs. -/
theorem chunk_map_nonoverlap_amended_witness :
    List.Pairwise entryNonOv [(⟨100, 50⟩, ⟨5000⟩), (⟨200, 50⟩, ⟨6000⟩)] ∧
    List.Pairwise entryNonOv [(⟨100, 50⟩, ⟨1000⟩), (⟨500, 10⟩, ⟨12345⟩)] := by
  constructor
  · exact chunk_map_nonoverlap_amended.1 [exEntryA, exEntryB] _ rfl (by decide)
  · exact chunk_map_nonoverlap_amended.2 exCache exChunkLeaf _ rfl (by decide)

/-! ## Exact bootstrap computation on well-formed arrays -/

/-- A bootstrap step on a record whose entry is fresh for (and
non-overlapping with) the whole cache: it always inserts. -/
theorem bootstrapStep_fresh {st0 : BootstrapState} {e : SysChunkEntry}
    (hty : e.key.ty = BTRFS_CHUNK_ITEM_KEY) (hns : e.chunk.num_stripes ≠ 0)
    (hfresh : ∀ q ∈ st0.cache, entryR q (entryOf e)) :
    bootstrapStep st0 e =
      .ok ⟨st0.cache ++ [entryOf e],
        if e.chunk.num_stripes ≠ 1 then st0.warnings ++ [e.chunk.num_stripes]
          else st0.warnings,
        st0.off + sizeOfKey + sizeOfChunk +
          sizeOfStripe * (e.chunk.num_stripes - 1)⟩ := by
  have hofs : ChunkTreeCache.offset st0.cache e.key.offset = none := by
    apply offset_none
    intro q hq
    have hR := hfresh q hq
    simp only [entryR, entryOf] at hR
    omega
  have hins : ChunkTreeCache.insert st0.cache ⟨e.key.offset, e.chunk.length⟩
      ⟨e.chunk.stripe.offset⟩ = st0.cache ++ [entryOf e] := by
    unfold ChunkTreeCache.insert
    rw [if_neg]
    · rfl
    · simp only [List.any_eq_true, not_exists, not_and]
      intro b hb
      have hR := hfresh b hb
      simp only [entryR, entryOf] at hR
      simp only [beq_iff_eq]
      exact fun hc => absurd hc hR.2
  unfold bootstrapStep
  rw [if_neg (by simp [hty]), if_neg hns]
  simp only [hofs, Option.isNone_none, if_pos, hins]

/-- On a well-formed system array (all records acceptable, entries
pairwise non-overlapping with distinct starts, also against the initial
cache), the bootstrap fold succeeds and appends exactly the records'
entries, in order. -/
theorem foldlM_bootstrap_exact (l : List SysChunkEntry) :
    ∀ st0 : BootstrapState, goodArr l →
      (st0.cache ++ l.map entryOf).Pairwise entryR →
      List.foldlM bootstrapStep st0 l =
        .ok ⟨st0.cache ++ l.map entryOf, st0.warnings ++ warnsOf l,
          offAfter st0.off l⟩ := by
  induction l with
  | nil =>
    intro st0 _ _
    obtain ⟨c, w, o⟩ := st0
    simp [List.foldlM_nil, pure, Except.pure, warnsOf, offAfter]
  | cons e rest ih =>
    intro st0 hgood hpw
    have hty := (hgood e (List.mem_cons_self _ _)).1
    have hns := (hgood e (List.mem_cons_self _ _)).2
    have hfresh : ∀ q ∈ st0.cache, entryR q (entryOf e) := by
      intro q hq
      have h3 := (List.pairwise_append.mp hpw).2.2
      exact h3 q hq (entryOf e) (by simp)
    rw [List.foldlM_cons, bootstrapStep_fresh hty hns hfresh]
    simp only [Bind.bind, Except.bind]
    have hgood' : goodArr rest := fun q hq => hgood q (List.mem_cons_of_mem _ hq)
    have hpw' : ((st0.cache ++ [entryOf e]) ++ rest.map entryOf).Pairwise entryR := by
      simpa [List.append_assoc] using hpw
    have hrec := ih ⟨st0.cache ++ [entryOf e],
      if e.chunk.num_stripes ≠ 1 then st0.warnings ++ [e.chunk.num_stripes]
        else st0.warnings,
      st0.off + sizeOfKey + sizeOfChunk +
        sizeOfStripe * (e.chunk.num_stripes - 1)⟩ hgood' hpw'
    rw [hrec]
    have hcache : (st0.cache ++ [entryOf e]) ++ rest.map entryOf =
        st0.cache ++ (e :: rest).map entryOf := by
      simp
    have hwarn : (if e.chunk.num_stripes ≠ 1 then
          st0.warnings ++ [e.chunk.num_stripes] else st0.warnings) ++ warnsOf rest =
        st0.warnings ++ warnsOf (e :: rest) := by
      by_cases h1 : e.chunk.num_stripes = 1
      · simp [h1, warnsOf, List.filterMap_cons]
      · simp [h1, warnsOf, List.filterMap_cons]
    have hoff : offAfter (st0.off + sizeOfKey + sizeOfChunk +
        sizeOfStripe * (e.chunk.num_stripes - 1)) rest = offAfter st0.off (e :: rest) := by
      simp [offAfter, List.foldl_cons]
    rw [hcache, hwarn, hoff]

/-- Bootstrap of a well-formed system array computes exactly its
entries. -/
theorem bootstrap_exact {l : List SysChunkEntry} (hgood : goodArr l)
    (hpw : (l.map entryOf).Pairwise entryR) :
    bootstrap_chunk_tree l = .ok ⟨l.map entryOf, warnsOf l, offAfter 0 l⟩ := by
  have := foldlM_bootstrap_exact l ⟨[], [], 0⟩ hgood (by simpa using hpw)
  simpa [bootstrap_chunk_tree] using this

/-- Lookup depends only on the set of entries of a well-formed map. -/
theorem mapping_kv_perm {c1 c2 : ChunkTreeCache} (hperm : c1.Perm c2)
    (hwf : c1.Pairwise entryR) (la : Nat) :
    ChunkTreeCache.mapping_kv c1 la = ChunkTreeCache.mapping_kv c2 la := by
  have hwf2 : c2.Pairwise entryR :=
    (hperm.pairwise_iff (fun h => entryR_symm h)).mp hwf
  cases h1 : ChunkTreeCache.mapping_kv c1 la with
  | some e =>
    obtain ⟨hmem, hlo, hhi, _⟩ := mapping_kv_eq_some h1
    rw [mapping_kv_of_mem hwf2 (hperm.mem_iff.mp hmem) hlo hhi]
  | none =>
    cases h2 : ChunkTreeCache.mapping_kv c2 la with
    | none => rfl
    | some e =>
      obtain ⟨hmem2, hlo, hhi, _⟩ := mapping_kv_eq_some h2
      have hmem1 := hperm.mem_iff.mpr hmem2
      rw [mapping_kv_of_mem hwf hmem1 hlo hhi] at h1
      cases h1

/-! ## Freshness of chunk-tree-walk insertions -/

/-- `c'` extends `cache` by entries whose starts are all new. -/
def extendsFresh (cache c' : ChunkTreeCache) : Prop :=
  ∃ rest, c' = cache ++ rest ∧ ∀ p ∈ rest, ∀ q ∈ cache, p.1.start ≠ q.1.start

theorem extendsFresh_refl (c : ChunkTreeCache) : extendsFresh c c :=
  ⟨[], by simp, by simp⟩

theorem extendsFresh_trans {a b c : ChunkTreeCache}
    (h1 : extendsFresh a b) (h2 : extendsFresh b c) : extendsFresh a c := by
  obtain ⟨r1, rfl, hf1⟩ := h1
  obtain ⟨r2, rfl, hf2⟩ := h2
  refine ⟨r1 ++ r2, by simp, ?_⟩
  intro p hp q hq
  rcases List.mem_append.mp hp with hp1 | hp2
  · exact hf1 p hp1 q hq
  · exact hf2 p hp2 q (List.mem_append.mpr (Or.inl hq))

/-- An insert only ever appends an entry with a fresh start. -/
theorem insert_extendsFresh (c : ChunkTreeCache) (k : ChunkTreeKey)
    (v : ChunkTreeValue) : extendsFresh c (ChunkTreeCache.insert c k v) := by
  unfold ChunkTreeCache.insert
  split
  · exact extendsFresh_refl c
  · rename_i hany
    refine ⟨[(k, v)], rfl, ?_⟩
    intro p hp q hq
    simp only [List.mem_singleton] at hp
    subst hp
    intro hc
    exact hany (List.any_eq_true.mpr ⟨q, hq, by simp [hc.symm]⟩)

theorem chunkLeafFold_extendsFresh (items : List (BtrfsKey × List Nat)) :
    ∀ cache : ChunkTreeCache, extendsFresh cache (chunkLeafFold cache items) := by
  induction items with
  | nil => intro cache; simp only [chunkLeafFold, List.foldl_nil]; exact extendsFresh_refl _
  | cons it rest ih =>
    intro cache
    by_cases hty : it.1.ty = BTRFS_CHUNK_ITEM_KEY
    · have h1 : chunkLeafFold cache (it :: rest) =
          chunkLeafFold (ChunkTreeCache.insert cache ⟨it.1.offset, readU64LE it.2 0⟩
            ⟨readU64LE it.2 56⟩) rest := by
        simp [chunkLeafFold, hty]
      rw [h1]
      exact extendsFresh_trans (insert_extendsFresh _ _ _) (ih _)
    · have h1 : chunkLeafFold cache (it :: rest) = chunkLeafFold cache rest := by
        simp [chunkLeafFold, hty]
      rw [h1]
      exact ih cache

mutual

/-- A chunk-tree walk never removes or replaces an existing entry: it
only appends entries with fresh starts (so bootstrap entries survive
the walk unchanged). -/
theorem read_chunk_tree_extendsFresh :
    ∀ {cache : ChunkTreeCache} {t : ChunkNode} {c' : ChunkTreeCache},
      read_chunk_tree cache t = .ok c' → extendsFresh cache c'
  | cache, .leaf items, c', h => by
    simp only [read_chunk_tree, Except.ok.injEq] at h
    subst h
    exact chunkLeafFold_extendsFresh items cache
  | cache, .node children, c', h => by
    simp only [read_chunk_tree] at h
    exact readChunkTreeChildren_extendsFresh h

/-- As `read_chunk_tree_extendsFresh`, over a child list. -/
theorem readChunkTreeChildren_extendsFresh :
    ∀ {cache : ChunkTreeCache} {l : List (Nat × ChunkNode)} {c' : ChunkTreeCache},
      readChunkTreeChildren cache l = .ok c' → extendsFresh cache c'
  | cache, [], c', h => by
    simp only [readChunkTreeChildren, Except.ok.injEq] at h
    subst h
    exact extendsFresh_refl _
  | cache, (ptr, child) :: rest, c', h => by
    simp only [readChunkTreeChildren] at h
    cases hofs : ChunkTreeCache.offset cache ptr with
    | none => rw [hofs] at h; cases h
    | some p =>
      rw [hofs] at h
      cases hrec : read_chunk_tree cache child with
      | error e => rw [hrec] at h; cases h
      | ok c1 =>
        rw [hrec] at h
        exact extendsFresh_trans (read_chunk_tree_extendsFresh hrec)
          (readChunkTreeChildren_extendsFresh h)

end

/-! ## Claim C7 -/

/-- C7: chunk-map insertion is first-wins (a duplicate start leaves the
map unchanged); the chunk-tree walk never overwrites an existing entry
(it only appends fresh starts); and reordering well-formed system-array
records mapping non-overlapping ranges yields identical chunk-map
contents (permuted entries, identical lookups). -/
theorem insert_first_wins_and_reorder :
    (∀ (c : ChunkTreeCache) (k : ChunkTreeKey) (v : ChunkTreeValue),
      (∃ b ∈ c, b.1.start = k.start) → ChunkTreeCache.insert c k v = c) ∧
    (∀ (cache : ChunkTreeCache) (t : ChunkNode) (c' : ChunkTreeCache),
      read_chunk_tree cache t = .ok c' →
      ∃ rest, c' = cache ++ rest ∧
        ∀ p ∈ rest, ∀ q ∈ cache, p.1.start ≠ q.1.start) ∧
    (∀ l1 l2 : List SysChunkEntry, l1.Perm l2 → goodArr l1 →
      (l1.map entryOf).Pairwise entryR →
      ∃ st1 st2, bootstrap_chunk_tree l1 = .ok st1 ∧
        bootstrap_chunk_tree l2 = .ok st2 ∧ st1.cache.Perm st2.cache ∧
        ∀ la, ChunkTreeCache.mapping_kv st1.cache la =
          ChunkTreeCache.mapping_kv st2.cache la) := by
  refine ⟨?_, ?_, ?_⟩
  · intro c k v hdup
    unfold ChunkTreeCache.insert
    rw [if_pos]
    obtain ⟨b, hb, hbs⟩ := hdup
    exact List.any_eq_true.mpr ⟨b, hb, by simp [hbs]⟩
  · intro cache t c' h
    exact read_chunk_tree_extendsFresh h
  · intro l1 l2 hperm hgood hpw
    have hgood2 : goodArr l2 := fun e he => hgood e (hperm.mem_iff.mpr he)
    have hpermm : (l1.map entryOf).Perm (l2.map entryOf) := hperm.map entryOf
    have hpw2 : (l2.map entryOf).Pairwise entryR :=
      (hpermm.pairwise_iff (fun h => entryR_symm h)).mp hpw
    refine ⟨_, _, bootstrap_exact hgood hpw, bootstrap_exact hgood2 hpw2, ?_, ?_⟩
    · exact hpermm
    · intro la
      exact mapping_kv_perm hpermm hpw la

/-- Witness for C7: duplicate-start insert on a concrete map; a
concrete chunk-tree walk extension; a concrete reorder. -/
theorem insert_first_wins_and_reorder_witness :
    ChunkTreeCache.insert exCache ⟨100, 7⟩ ⟨9⟩ = exCache ∧
    (∃ rest, [(⟨100, 50⟩, (⟨1000⟩ : ChunkTreeValue)), (⟨500, 10⟩, ⟨12345⟩)] =
        exCache ++ rest ∧
      ∀ p ∈ rest, ∀ q ∈ exCache, p.1.start ≠ q.1.start) ∧
    (∃ st1 st2, bootstrap_chunk_tree [exEntryA, exEntryB] = .ok st1 ∧
      bootstrap_chunk_tree [exEntryB, exEntryA] = .ok st2 ∧
      st1.cache.Perm st2.cache ∧
      ∀ la, ChunkTreeCache.mapping_kv st1.cache la =
        ChunkTreeCache.mapping_kv st2.cache la) := by
  refine ⟨?_, ?_, ?_⟩
  · exact insert_first_wins_and_reorder.1 exCache ⟨100, 7⟩ ⟨9⟩
      ⟨(⟨100, 50⟩, ⟨1000⟩), by decide, rfl⟩
  · exact insert_first_wins_and_reorder.2.1 exCache exChunkLeaf _ rfl
  · exact insert_first_wins_and_reorder.2.2 [exEntryA, exEntryB] [exEntryB, exEntryA]
      (List.Perm.swap exEntryB exEntryA []) (by decide) (by decide)

/-! ## Inode-ref lookup lemmas -/

/-- What a successful leaf scan returns: the first matching item's key
(whose objectid is the requested inode and whose type is `INODE_REF`),
its parsed inode ref, and its trailing `name_len` name bytes. -/
theorem getInodeRefItems_spec {inode : Nat} {items : List FsLeafItem}
    {k : BtrfsKey} {ir : BtrfsInodeRef} {pl : List Nat}
    (h : getInodeRefItems inode items = some (k, ir, pl)) :
    ∃ it ∈ items, it.key = k ∧ k.objectid = inode ∧
      k.ty = BTRFS_INODE_REF_KEY ∧ ir = parseInodeRef it.payload ∧
      pl = (it.payload.drop sizeOfInodeRef).take ir.name_len := by
  induction items with
  | nil => simp [getInodeRefItems] at h
  | cons it rest ih =>
    by_cases hty : it.key.ty ≠ BTRFS_INODE_REF_KEY
    · rw [getInodeRefItems, if_pos hty] at h
      obtain ⟨it', hmem, hrest⟩ := ih h
      exact ⟨it', List.mem_cons_of_mem _ hmem, hrest⟩
    · push_neg at hty
      by_cases hobj : it.key.objectid = inode
      · rw [getInodeRefItems, if_neg (by simp [hty]), if_pos hobj] at h
        simp only [Option.some.injEq, Prod.mk.injEq] at h
        obtain ⟨hk, hir, hpl⟩ := h
        subst hk
        subst hir
        exact ⟨it, List.mem_cons_self _ _, rfl, hobj, hty, rfl, hpl.symm⟩
      · rw [getInodeRefItems, if_neg (by simp [hty]), if_neg hobj] at h
        obtain ⟨it', hmem, hrest⟩ := ih h
        exact ⟨it', List.mem_cons_of_mem _ hmem, hrest⟩

mutual

/-- The provenance of a successful tree-wide inode-ref lookup. -/
theorem get_inode_ref_spec :
    ∀ {inode : Nat} {t : FsNode} {k : BtrfsKey} {ir : BtrfsInodeRef}
      {pl : List Nat},
      get_inode_ref inode t = .ok (some (k, ir, pl)) →
      ∃ it ∈ allItems t, it.key = k ∧ k.objectid = inode ∧
        k.ty = BTRFS_INODE_REF_KEY ∧ ir = parseInodeRef it.payload ∧
        pl = (it.payload.drop sizeOfInodeRef).take ir.name_len
  | inode, .leaf items, k, ir, pl, h => by
    simp only [get_inode_ref, Except.ok.injEq] at h
    simpa [allItems] using getInodeRefItems_spec h
  | inode, .node children, k, ir, pl, h => by
    simp only [get_inode_ref] at h
    simpa [allItems] using getInodeRefChildren_spec h

/-- As `get_inode_ref_spec`, over a child list. -/
theorem getInodeRefChildren_spec :
    ∀ {inode : Nat} {l : List (Option FsNode)} {k : BtrfsKey}
      {ir : BtrfsInodeRef} {pl : List Nat},
      getInodeRefChildren inode l = .ok (some (k, ir, pl)) →
      ∃ it ∈ allItemsChildren l, it.key = k ∧ k.objectid = inode ∧
        k.ty = BTRFS_INODE_REF_KEY ∧ ir = parseInodeRef it.payload ∧
        pl = (it.payload.drop sizeOfInodeRef).take ir.name_len
  | inode, [], k, ir, pl, h => by
    simp [getInodeRefChildren] at h
  | inode, none :: rest, k, ir, pl, h => by
    simp [getInodeRefChildren] at h
  | inode, some child :: rest, k, ir, pl, h => by
    simp only [getInodeRefChildren] at h
    cases hrec : get_inode_ref inode child with
    | error e => rw [hrec] at h; cases h
    | ok r =>
      rw [hrec] at h
      cases r with
      | some v =>
        simp only [Except.ok.injEq, Option.some.injEq] at h
        subst h
        obtain ⟨it, hmem, hrest⟩ := get_inode_ref_spec hrec
        exact ⟨it, by simp [allItemsChildren, hmem], hrest⟩
      | none =>
        obtain ⟨it, hmem, hrest⟩ := getInodeRefChildren_spec h
        exact ⟨it, by simp [allItemsChildren, hmem], hrest⟩

end

mutual

/-- The only error an inode-ref lookup can surface is an unmapped
block pointer. -/
theorem get_inode_ref_error :
    ∀ {inode : Nat} {t : FsNode} {e : WalkErr},
      get_inode_ref inode t = .error e → e = .notMapped
  | inode, .leaf items, e, h => by
    simp [get_inode_ref] at h
  | inode, .node children, e, h => by
    simp only [get_inode_ref] at h
    exact getInodeRefChildren_error h

/-- As `get_inode_ref_error`, over a child list. -/
theorem getInodeRefChildren_error :
    ∀ {inode : Nat} {l : List (Option FsNode)} {e : WalkErr},
      getInodeRefChildren inode l = .error e → e = .notMapped
  | inode, [], e, h => by simp [getInodeRefChildren] at h
  | inode, none :: rest, e, h => by
    simp only [getInodeRefChildren, Except.error.injEq] at h
    exact h.symm
  | inode, some child :: rest, e, h => by
    simp only [getInodeRefChildren] at h
    cases hrec : get_inode_ref inode child with
    | error e' =>
      rw [hrec] at h
      cases h
      exact get_inode_ref_error hrec
    | ok r =>
      rw [hrec] at h
      cases r with
      | some v => cases h
      | none => exact getInodeRefChildren_error h

end

/-! ## One-step equations of the path loop -/

theorem build_path_loop_err_lookup {root : FsNode} {n current : Nat}
    {acc : List Char} {e : WalkErr}
    (hge : get_inode_ref current root = .error e) :
    build_path_loop root (n+1) current acc = .err e := by
  simp [build_path_loop, hge]

theorem build_path_loop_err_notFound {root : FsNode} {n current : Nat}
    {acc : List Char} (hge : get_inode_ref current root = .ok none) :
    build_path_loop root (n+1) current acc = .err (.refNotFound current) := by
  simp [build_path_loop, hge]

theorem build_path_loop_self {root : FsNode} {n current : Nat}
    {acc : List Char} {k : BtrfsKey} {ir : BtrfsInodeRef} {pl : List Nat}
    (hge : get_inode_ref current root = .ok (some (k, ir, pl)))
    (hobj : k.objectid = current) (hself : k.offset = current) :
    build_path_loop root (n+1) current acc = .ok ('/' :: acc) := by
  simp only [build_path_loop, hge]
  rw [if_neg (by simp [hobj]), if_pos hself]

theorem build_path_loop_badUtf8 {root : FsNode} {n current : Nat}
    {acc : List Char} {k : BtrfsKey} {ir : BtrfsInodeRef} {pl : List Nat}
    (hge : get_inode_ref current root = .ok (some (k, ir, pl)))
    (hobj : k.objectid = current) (hself : k.offset ≠ current)
    (hdec : utf8DecodeList pl = none) :
    build_path_loop root (n+1) current acc = .err .badUtf8 := by
  simp only [build_path_loop, hge]
  rw [if_neg (by simp [hobj]), if_neg hself, hdec]

theorem build_path_loop_continue {root : FsNode} {n current : Nat}
    {acc : List Char} {k : BtrfsKey} {ir : BtrfsInodeRef} {pl : List Nat}
    {name : List Char}
    (hge : get_inode_ref current root = .ok (some (k, ir, pl)))
    (hobj : k.objectid = current) (hself : k.offset ≠ current)
    (hdec : utf8DecodeList pl = some name) :
    build_path_loop root (n+1) current acc =
      build_path_loop root n k.offset (name ++ '/' :: acc) := by
  simp only [build_path_loop, hge]
  rw [if_neg (by simp [hobj]), if_neg hself, hdec]

/-! ## One-step equations of the chain abstraction -/

theorem stepOf_halt_lookup {root : FsNode} {n : Nat} {e : WalkErr}
    (hge : get_inode_ref n root = .error e) : stepOf root n = none := by
  simp [stepOf, hge]

theorem stepOf_halt_notFound {root : FsNode} {n : Nat}
    (hge : get_inode_ref n root = .ok none) : stepOf root n = none := by
  simp [stepOf, hge]

theorem stepOf_halt_self {root : FsNode} {n : Nat} {k : BtrfsKey}
    {ir : BtrfsInodeRef} {pl : List Nat}
    (hge : get_inode_ref n root = .ok (some (k, ir, pl)))
    (hobj : k.objectid = n) (hself : k.offset = n) : stepOf root n = none := by
  simp only [stepOf, hge]
  rw [if_neg (by simp [hobj]), if_pos hself]

theorem stepOf_halt_badUtf8 {root : FsNode} {n : Nat} {k : BtrfsKey}
    {ir : BtrfsInodeRef} {pl : List Nat}
    (hge : get_inode_ref n root = .ok (some (k, ir, pl)))
    (hobj : k.objectid = n) (hself : k.offset ≠ n)
    (hdec : utf8DecodeList pl = none) : stepOf root n = none := by
  simp only [stepOf, hge]
  rw [if_neg (by simp [hobj]), if_neg hself, hdec]

theorem stepOf_continue {root : FsNode} {n : Nat} {k : BtrfsKey}
    {ir : BtrfsInodeRef} {pl : List Nat} {name : List Char}
    (hge : get_inode_ref n root = .ok (some (k, ir, pl)))
    (hobj : k.objectid = n) (hself : k.offset ≠ n)
    (hdec : utf8DecodeList pl = some name) : stepOf root n = some k.offset := by
  simp only [stepOf, hge]
  rw [if_neg (by simp [hobj]), if_neg hself, hdec]

theorem chainK_succ_none {root : FsNode} {start k : Nat}
    (h : stepOf root start = none) : chainK root start (k+1) = none := by
  simp [chainK, h]

theorem chainK_succ_some {root : FsNode} {start k next : Nat}
    (h : stepOf root start = some next) :
    chainK root start (k+1) = chainK root next k := by
  simp [chainK, h]

/-! ## Claim C9 -/

/-- C9: a successful inode-ref lookup returns a key whose objectid is
the requested inode, so the `assert_eq!(current_key.objectid,
current_inode_nr)` after each lookup in the path-reconstruction loop
never fails. -/
theorem inode_ref_lookup_assertion :
    (∀ (inode : Nat) (t : FsNode) (k : BtrfsKey) (ir : BtrfsInodeRef)
      (pl : List Nat),
      get_inode_ref inode t = .ok (some (k, ir, pl)) → k.objectid = inode) ∧
    (∀ (root : FsNode) (fuel current : Nat) (acc : List Char),
      build_path_loop root fuel current acc ≠ .err .assertFail) := by
  constructor
  · intro inode t k ir pl h
    obtain ⟨it, _, _, hobj, _⟩ := get_inode_ref_spec h
    exact hobj
  · intro root fuel
    induction fuel with
    | zero => intro current acc; simp [build_path_loop]
    | succ n ih =>
      intro current acc
      cases hge : get_inode_ref current root with
      | error e =>
        have he := get_inode_ref_error hge
        subst he
        rw [build_path_loop_err_lookup hge]
        simp
      | ok r =>
        cases r with
        | none => rw [build_path_loop_err_notFound hge]; simp
        | some v =>
          obtain ⟨k, ir, pl⟩ := v
          obtain ⟨it, _, _, hobj, _⟩ := get_inode_ref_spec hge
          by_cases hself : k.offset = current
          · rw [build_path_loop_self hge hobj hself]; simp
          · cases hdec : utf8DecodeList pl with
            | none => rw [build_path_loop_badUtf8 hge hobj hself hdec]; simp
            | some name =>
              rw [build_path_loop_continue hge hobj hself hdec]
              exact ih k.offset (name ++ '/' :: acc)

/-- Witness for C9 on a concrete lookup in `exTree`. -/
theorem inode_ref_lookup_assertion_witness :
    (⟨300, 12, 256⟩ : BtrfsKey).objectid = 300 ∧
    build_path_loop exTree 1 300 [] ≠ .err .assertFail := by
  constructor
  · exact inode_ref_lookup_assertion.1 300 exTree ⟨300, 12, 256⟩ ⟨0, 1⟩ [100] rfl
  · exact inode_ref_lookup_assertion.2 exTree 1 300 []

/-! ## Claim C2 -/

/-- C2: the path-prefix loop for a regular-file `DIR_ITEM` starts at
`current = item.key.objectid` and at each step: on a self-parent
(`key.offset = current`) it prepends `/` and stops; otherwise it
prepends the decoded parent name followed by `/` and continues at
`key.offset`; the looked-up name is the inode-ref payload's trailing
`name_len` bytes; the emitted line is `filename=` followed by the
prefix followed by the basename. -/
theorem path_loop_steps (root : FsNode) :
    (∀ (fuel current : Nat) (acc : List Char) (k : BtrfsKey)
      (ir : BtrfsInodeRef) (pl : List Nat),
      get_inode_ref current root = .ok (some (k, ir, pl)) → k.offset = current →
      build_path_loop root (fuel+1) current acc = .ok ('/' :: acc)) ∧
    (∀ (fuel current : Nat) (acc : List Char) (k : BtrfsKey)
      (ir : BtrfsInodeRef) (pl : List Nat) (name : List Char),
      get_inode_ref current root = .ok (some (k, ir, pl)) → k.offset ≠ current →
      utf8DecodeList pl = some name →
      build_path_loop root (fuel+1) current acc =
        build_path_loop root fuel k.offset (name ++ '/' :: acc)) ∧
    (∀ (inode : Nat) (k : BtrfsKey) (ir : BtrfsInodeRef) (pl : List Nat),
      get_inode_ref inode root = .ok (some (k, ir, pl)) →
      ∃ it ∈ allItems root, it.key = k ∧ ir = parseInodeRef it.payload ∧
        pl = (it.payload.drop sizeOfInodeRef).take ir.name_len) ∧
    (∀ (fuel : Nat) (it : FsLeafItem) (p name : List Char),
      it.key.ty = BTRFS_DIR_ITEM_KEY → readU8 it.payload 29 = BTRFS_FT_REG_FILE →
      utf8DecodeList (dirNameBytes it.payload) = some name →
      build_path_loop root fuel it.key.objectid [] = .ok p →
      walkLeafItem root fuel it = .emit (filenameTag ++ p ++ name)) := by
  refine ⟨?_, ?_, ?_, ?_⟩
  · intro fuel current acc k ir pl hge hself
    obtain ⟨_, _, _, hobj, _⟩ := get_inode_ref_spec hge
    simp only [build_path_loop, hge]
    rw [if_neg (by simp [hobj]), if_pos hself]
  · intro fuel current acc k ir pl name hge hself hdec
    obtain ⟨_, _, _, hobj, _⟩ := get_inode_ref_spec hge
    simp only [build_path_loop, hge]
    rw [if_neg (by simp [hobj]), if_neg hself, hdec]
  · intro inode k ir pl hge
    obtain ⟨it, hmem, hk, _, _, hir, hpl⟩ := get_inode_ref_spec hge
    exact ⟨it, hmem, hk, hir, hpl⟩
  · intro fuel it p name hty hreg hdec hloop
    unfold walkLeafItem
    rw [if_neg (by simp [hty]), if_neg (by simp [hreg]), hdec, hloop]

/-- Witness for C2 on `exTree`: one continue step (parent `d`, inode
256), one self-parent stop, and the emitted line `filename=/d/b`. -/
theorem path_loop_steps_witness :
    build_path_loop exTree 2 300 [] = build_path_loop exTree 1 256 ['d', '/'] ∧
    build_path_loop exTree 1 256 ['d', '/'] = .ok ['/', 'd', '/'] ∧
    walkLeafItem exTree 2 ⟨⟨300, 84, 0⟩, dirItemPayload [98]⟩ =
      .emit (filenameTag ++ ['/', 'd', '/'] ++ ['b']) := by
  refine ⟨?_, ?_, ?_⟩
  · exact (path_loop_steps exTree).2.1 1 300 [] ⟨300, 12, 256⟩ ⟨0, 1⟩ [100] ['d']
      rfl (by decide) rfl
  · exact (path_loop_steps exTree).1 0 256 ['d', '/'] ⟨256, 12, 256⟩ ⟨0, 0⟩ []
      rfl rfl
  · exact (path_loop_steps exTree).2.2.2 2 ⟨⟨300, 84, 0⟩, dirItemPayload [98]⟩
      ['/', 'd', '/'] ['b'] rfl rfl rfl (by decide)

/-! ## Claim C10 (counterexample and amended statement) -/

/-- C10 amended, part 1 machinery: the loop spins (runs out of any
given fuel) exactly while the enriched parent chain — which also halts
on a name that fails UTF-8 decoding — is still running. -/
theorem build_path_loop_spin_iff (root : FsNode) :
    ∀ (fuel start : Nat) (acc : List Char),
      (build_path_loop root fuel start acc = .spin ↔
        (chainK root start fuel).isSome) := by
  intro fuel
  induction fuel with
  | zero => intro start acc; simp [build_path_loop, chainK]
  | succ n ih =>
    intro start acc
    cases hge : get_inode_ref start root with
    | error e =>
      rw [build_path_loop_err_lookup hge, chainK_succ_none (stepOf_halt_lookup hge)]
      simp
    | ok r =>
      cases r with
      | none =>
        rw [build_path_loop_err_notFound hge,
          chainK_succ_none (stepOf_halt_notFound hge)]
        simp
      | some v =>
        obtain ⟨k, ir, pl⟩ := v
        obtain ⟨it, _, _, hobj, _⟩ := get_inode_ref_spec hge
        by_cases hself : k.offset = start
        · rw [build_path_loop_self hge hobj hself,
            chainK_succ_none (stepOf_halt_self hge hobj hself)]
          simp
        · cases hdec : utf8DecodeList pl with
          | none =>
            rw [build_path_loop_badUtf8 hge hobj hself hdec,
              chainK_succ_none (stepOf_halt_badUtf8 hge hobj hself hdec)]
            simp
          | some name =>
            rw [build_path_loop_continue hge hobj hself hdec,
              chainK_succ_some (stepOf_continue hge hobj hself hdec)]
            exact ih k.offset (name ++ '/' :: acc)

/-- C10 amended: the loop terminates (for sufficient fuel) iff the
parent chain from the start inode eventually halts — on a self-parent,
a missing inode-ref (or unmapped block, an error), **or a parent name
that fails UTF-8 decoding** (also an error); with no cycle guard, a
chain that never halts makes the loop run forever. -/
theorem loop_termination_amended :
    (∀ (root : FsNode) (fuel start : Nat) (acc : List Char),
      build_path_loop root fuel start acc = .spin ↔
        (chainK root start fuel).isSome) ∧
    (∀ (root : FsNode) (start : Nat) (acc : List Char),
      (∀ k, (chainK root start k).isSome) →
      ∀ fuel, build_path_loop root fuel start acc = .spin) := by
  constructor
  · intro root fuel start acc
    exact build_path_loop_spin_iff root fuel start acc
  · intro root start acc hall fuel
    exact (build_path_loop_spin_iff root fuel start acc).mpr (hall fuel)

/-- The valid-name cycle keeps both chain positions running forever. -/
theorem exSpinTree_chainK_isSome :
    ∀ k, (chainK exSpinTree 300 k).isSome ∧ (chainK exSpinTree 301 k).isSome := by
  intro k
  induction k with
  | zero => exact ⟨rfl, rfl⟩
  | succ n ih =>
    constructor
    · have h : chainK exSpinTree 300 (n+1) = chainK exSpinTree 301 n := rfl
      rw [h]; exact ih.2
    · have h : chainK exSpinTree 301 (n+1) = chainK exSpinTree 300 n := rfl
      rw [h]; exact ih.1

/-- Witness for the amended C10: on the valid-name cycle the loop
spins at any concrete fuel. -/
theorem loop_termination_amended_witness :
    build_path_loop exSpinTree 7 300 [] = .spin :=
  loop_termination_amended.2 exSpinTree 300 []
    (fun k => (exSpinTree_chainK_isSome k).1) 7

/-- C10 counterexample: on the cycle `300 → 301 → 300` whose names are
invalid UTF-8, the chain as the claim reads it (halting only on
self-parent or missing inode-ref) runs forever — one hop `300 → 301`,
one hop `301 → 300`, still running after 100 steps — yet the loop
terminates immediately with a UTF-8 error, which the claim's "if and
only if" does not allow. -/
theorem loop_cycle_terminates_cex :
    build_path_loop exC10Tree 1 300 [] = .err .badUtf8 ∧
    build_path_loop exC10Tree 5 300 [] = .err .badUtf8 ∧
    stepOfClaim exC10Tree 300 = some 301 ∧
    stepOfClaim exC10Tree 301 = some 300 ∧
    chainKClaim exC10Tree 300 100 = some 300 :=
  ⟨rfl, rfl, rfl, rfl, rfl⟩

/-! ## Claim C4 -/

/-- The reverse-scan loop of `read_fs_tree_root` is first-match search
(`find?`) over the list it is given. -/
theorem readFsTreeRootGo_eq (disk : Nat → Nat) (node_size : Nat)
    (cache : ChunkTreeCache) (block : List Nat) :
    ∀ l : List BtrfsItem,
      readFsTreeRootGo disk node_size cache block l =
        match l.find? isFsRootItem with
        | none => .error .noFsRootItem
        | some it =>
          match ChunkTreeCache.offset cache
              (readU64LE block (sizeOfHeader + it.offset + rootItemBytenrOff)) with
          | none => .error .fsRootNotMapped
          | some physical => .ok (readDisk disk physical node_size) := by
  intro l
  induction l with
  | nil => rfl
  | cons it rest ih =>
    by_cases hit : isFsRootItem it
    · have hfind : (it :: rest).find? isFsRootItem = some it :=
        List.find?_cons_of_pos _ hit
      rw [readFsTreeRootGo, if_neg (by simp [hit]), hfind]
    · have hfind : (it :: rest).find? isFsRootItem = rest.find? isFsRootItem :=
        List.find?_cons_of_neg _ (by simp [hit])
      rw [readFsTreeRootGo, if_pos (by simp [hit]), hfind, ih]

/-- C4: reading the filesystem-tree root fails with the
"not a leaf node" error whenever the root-tree root block's level is
nonzero; with a leaf, the items are scanned in reverse order and the
first reverse-order item with `key.objectid = FS_TREE_OBJECTID` and
`key.ty = ROOT_ITEM` supplies the `bytenr` (resolved through the chunk
map) from which a `node_size` block is read. -/
theorem fs_tree_root_selection (disk : Nat → Nat) (node_size : Nat)
    (cache : ChunkTreeCache) (block : List Nat) (h : BtrfsHeader)
    (hh : parse_btrfs_header block = some h) :
    (h.level ≠ 0 → read_fs_tree_root disk node_size cache block = .error .notLeaf) ∧
    (∀ items : List BtrfsItem, h.level = 0 → parse_btrfs_leaf block = .ok items →
      read_fs_tree_root disk node_size cache block =
        match items.reverse.find? isFsRootItem with
        | none => .error .noFsRootItem
        | some it =>
          match ChunkTreeCache.offset cache
              (readU64LE block (sizeOfHeader + it.offset + rootItemBytenrOff)) with
          | none => .error .fsRootNotMapped
          | some physical => .ok (readDisk disk physical node_size)) := by
  constructor
  · intro hl
    simp only [read_fs_tree_root, hh]
    rw [if_pos hl]
  · intro items hl hleaf
    simp only [read_fs_tree_root, hh]
    rw [if_neg (by simp [hl])]
    simp only [hleaf]
    exact readFsTreeRootGo_eq disk node_size cache block items.reverse

set_option maxRecDepth 100000 in
/-- Witness for C4: on `exRootBlock` (two fs-tree root items) the
reverse scan selects the second (`bytenr` 2000 ↦ physical 7777) and a
4-byte block is read there; a level-1 block fails. -/
theorem fs_tree_root_selection_witness :
    read_fs_tree_root (fun i => i % 256) 4 exC4Cache exRootBlock =
      .ok [97, 98, 99, 100] ∧
    read_fs_tree_root (fun i => i % 256) 4 exC4Cache exNotLeafBlock =
      .error .notLeaf := by
  constructor
  · have h := (fs_tree_root_selection (fun i => i % 256) 4 exC4Cache exRootBlock
      ⟨0, 2, 0⟩ rfl).2 [⟨⟨5, 132, 0⟩, 50, 184⟩, ⟨⟨5, 132, 1⟩, 234, 184⟩] rfl rfl
    rw [h]
    rfl
  · exact (fs_tree_root_selection (fun i => i % 256) 4 exC4Cache exNotLeafBlock
      ⟨0, 0, 1⟩ rfl).1 (by decide)

/-! ## Claim C5 (evaluation at the boundary inputs)

`exFullBlock` is exactly full and parses; `exOverBlock` declares one
byte more for its last item and is rejected by the (spec-modelled)
parser; but `exFullBlock`'s dir item declares `name_len = 100`, whose
trailing-name read crosses both the item's 31-byte payload and the
block end — the source performs it unchecked (`slice::from_raw_parts`;
undefined behaviour past the allocation), and the walk emits a line
built from bytes beyond the declared payload instead of failing. -/
set_option maxRecDepth 100000 in
theorem leaf_boundary_eval :
    parse_btrfs_leaf exFullBlock =
      .ok [⟨⟨256, 84, 0⟩, 50, 31⟩, ⟨⟨256, 12, 256⟩, 81, 12⟩] ∧
    exFullBlock.length = 194 ∧
    sizeOfHeader + 81 + 12 = 194 ∧
    parse_btrfs_leaf exOverBlock = .error (.payloadOutOfBounds 1) ∧
    readU16LE (dirItemPayloadRaw 100 [98]) 27 = 100 ∧
    sizeOfHeader + 50 + sizeOfDirItem + 100 > exFullBlock.length ∧
    (walk_fs_tree (fsLeafOfBlockD exFullBlock) 1 (fsLeafOfBlockD exFullBlock)).stop =
      .done ∧
    (walk_fs_tree (fsLeafOfBlockD exFullBlock) 1 (fsLeafOfBlockD exFullBlock)).lines.length = 1 :=
  ⟨rfl, rfl, rfl, rfl, rfl, by decide, rfl, rfl⟩

/-! ## Separator-shape lemmas -/

theorem hasDoubleSlash_append {xs ys : List Char}
    (hx : hasDoubleSlash xs = false) (hy : hasDoubleSlash ys = false)
    (hj : xs.getLast? ≠ some '/' ∨ ys.head? ≠ some '/') :
    hasDoubleSlash (xs ++ ys) = false := by
  induction xs with
  | nil => simpa using hy
  | cons a xs ih =>
    cases xs with
    | nil =>
      cases ys with
      | nil => simpa using hx
      | cons b ys' =>
        show ((a == '/' && b == '/') || hasDoubleSlash (b :: ys')) = false
        rw [Bool.or_eq_false_iff]
        refine ⟨?_, hy⟩
        rw [Bool.and_eq_false_iff]
        rcases hj with h | h
        · left
          simp only [List.getLast?_singleton, ne_eq, Option.some.injEq] at h
          simp [h]
        · right
          simp only [List.head?_cons, ne_eq, Option.some.injEq] at h
          simp [h]
    | cons b xs' =>
      show ((a == '/' && b == '/') || hasDoubleSlash ((b :: xs') ++ ys)) = false
      have hx' : ((a == '/' && b == '/') || hasDoubleSlash (b :: xs')) = false := hx
      rw [Bool.or_eq_false_iff] at hx'
      rw [Bool.or_eq_false_iff]
      refine ⟨hx'.1, ?_⟩
      apply ih hx'.2 ?_
      rcases hj with h | h
      · left
        rw [List.getLast?_cons_cons] at h
        exact h
      · right
        exact h

theorem hasDoubleSlash_of_slashFree :
    ∀ {cs : List Char}, (∀ c ∈ cs, c ≠ '/') → hasDoubleSlash cs = false
  | [], _ => rfl
  | [_], _ => rfl
  | a :: b :: rest, h => by
    show ((a == '/' && b == '/') || hasDoubleSlash (b :: rest)) = false
    rw [Bool.or_eq_false_iff]
    constructor
    · rw [Bool.and_eq_false_iff]
      left
      simpa using h a (by simp)
    · exact hasDoubleSlash_of_slashFree (fun c hc => h c (List.mem_cons_of_mem _ hc))

theorem accOk_nil : accOk [] := ⟨rfl, Or.inl rfl⟩

/-- The final prepend of `/` turns a good accumulator into a path that
starts with `/`, has no empty segment, and ends with `/`. -/
theorem accOk_final {acc : List Char} (h : accOk acc) :
    ('/' :: acc).head? = some '/' ∧ hasDoubleSlash ('/' :: acc) = false ∧
      ('/' :: acc).getLast? = some '/' := by
  obtain ⟨hds, hsh⟩ := h
  refine ⟨rfl, ?_, ?_⟩
  · cases acc with
    | nil => rfl
    | cons a t =>
      show (('/' == '/' && a == '/') || hasDoubleSlash (a :: t)) = false
      rw [Bool.or_eq_false_iff]
      refine ⟨?_, hds⟩
      rcases hsh with h | ⟨hh, _⟩
      · cases h
      · rw [Bool.and_eq_false_iff]
        right
        simp only [List.head?_cons, ne_eq, Option.some.injEq] at hh
        simp [hh]
  · cases acc with
    | nil => rfl
    | cons a t =>
      rw [List.getLast?_cons_cons]
      rcases hsh with h | ⟨_, hl⟩
      · cases h
      · exact hl

/-- Prepending a nonempty slash-free name and a separator preserves the
accumulator invariant. -/
theorem accOk_step {acc name : List Char} (h : accOk acc) (hne : name ≠ [])
    (hsf : ∀ c ∈ name, c ≠ '/') : accOk (name ++ '/' :: acc) := by
  obtain ⟨hfinal1, hfinal2, hfinal3⟩ := accOk_final h
  constructor
  · apply hasDoubleSlash_append (hasDoubleSlash_of_slashFree hsf) hfinal2
    left
    intro hlast
    exact hsf '/' (List.mem_of_mem_getLast? (by rw [hlast]; simp)) rfl
  · right
    constructor
    · rw [List.head?_append]
      cases hn : name.head? with
      | none => exact absurd (List.head?_eq_none_iff.mp hn) hne
      | some c =>
        have hc : c ≠ '/' := hsf c (List.mem_of_mem_head? (by rw [hn]; simp))
        simp [Option.or, hc]
    · rw [List.getLast?_append, hfinal3]
      rfl

/-! ## Name goodness extraction -/

theorem goodTree_name {root : FsNode} (hg : goodTreeB root = true)
    {it : FsLeafItem} (hmem : it ∈ allItems root)
    (hty : it.key.ty = BTRFS_INODE_REF_KEY)
    (hns : it.key.offset ≠ it.key.objectid) {name : List Char}
    (hdec : utf8DecodeList
      ((it.payload.drop sizeOfInodeRef).take (parseInodeRef it.payload).name_len) =
      some name) :
    name ≠ [] ∧ ∀ c ∈ name, c ≠ '/' := by
  unfold goodTreeB at hg
  rw [List.all_eq_true] at hg
  have h := hg it hmem
  rw [Bool.and_eq_true] at h
  have h1 := h.1
  rw [Bool.or_eq_true, Bool.or_eq_true] at h1
  rcases h1 with (h1 | h1) | h1
  · simp [hty] at h1
  · rw [beq_iff_eq] at h1
    exact absurd h1 hns
  · simp only [goodNameB, hdec, Bool.and_eq_true] at h1
    constructor
    · intro hne
      rw [hne] at h1
      simp at h1
    · intro c hc
      have := List.all_eq_true.mp h1.2 c hc
      simpa using this

theorem goodTree_dirName {root : FsNode} (hg : goodTreeB root = true)
    {it : FsLeafItem} (hmem : it ∈ allItems root)
    (hty : it.key.ty = BTRFS_DIR_ITEM_KEY) {name : List Char}
    (hdec : utf8DecodeList (dirNameBytes it.payload) = some name) :
    ∀ c ∈ name, c ≠ '/' := by
  unfold goodTreeB at hg
  rw [List.all_eq_true] at hg
  have h := hg it hmem
  rw [Bool.and_eq_true] at h
  have h2 := h.2
  rw [Bool.or_eq_true] at h2
  rcases h2 with h2 | h2
  · simp [hty] at h2
  · simp only [goodDirNameB, hdec] at h2
    intro c hc
    have := List.all_eq_true.mp h2 c hc
    simpa using this

/-! ## The loop's path shape on good trees -/

theorem build_path_loop_shape {root : FsNode} (hg : goodTreeB root = true) :
    ∀ (fuel current : Nat) (acc p : List Char),
      accOk acc → build_path_loop root fuel current acc = .ok p →
      p.head? = some '/' ∧ hasDoubleSlash p = false ∧ p.getLast? = some '/' := by
  intro fuel
  induction fuel with
  | zero => intro current acc p _ h; simp [build_path_loop] at h
  | succ n ih =>
    intro current acc p hacc h
    cases hge : get_inode_ref current root with
    | error e => rw [build_path_loop_err_lookup hge] at h; cases h
    | ok r =>
      cases r with
      | none => rw [build_path_loop_err_notFound hge] at h; cases h
      | some v =>
        obtain ⟨k, ir, pl⟩ := v
        obtain ⟨it, hmem, hkey, hobj, hty, hir, hpl⟩ := get_inode_ref_spec hge
        by_cases hself : k.offset = current
        · rw [build_path_loop_self hge hobj hself] at h
          cases h
          exact accOk_final hacc
        · cases hdec : utf8DecodeList pl with
          | none => rw [build_path_loop_badUtf8 hge hobj hself hdec] at h; cases h
          | some name =>
            rw [build_path_loop_continue hge hobj hself hdec] at h
            rw [hpl, hir] at hdec
            have hns : it.key.offset ≠ it.key.objectid := by
              rw [hkey]
              rw [hobj]
              exact hself
            have hgood := goodTree_name hg hmem (by rw [hkey]; exact hty) hns hdec
            exact ih k.offset (name ++ '/' :: acc) p
              (accOk_step hacc hgood.1 hgood.2) h

/-- Unconditionally, a prefix the loop completes starts with `/`: the
only `ok` exit is the self-parent branch, which prepends `/`. -/
theorem build_path_loop_ok_head {root : FsNode} :
    ∀ {fuel current : Nat} {acc p : List Char},
      build_path_loop root fuel current acc = .ok p → p.head? = some '/' := by
  intro fuel
  induction fuel with
  | zero => intro current acc p h; simp [build_path_loop] at h
  | succ n ih =>
    intro current acc p h
    cases hge : get_inode_ref current root with
    | error e => rw [build_path_loop_err_lookup hge] at h; cases h
    | ok r =>
      cases r with
      | none => rw [build_path_loop_err_notFound hge] at h; cases h
      | some v =>
        obtain ⟨k, ir, pl⟩ := v
        obtain ⟨it, _, _, hobj, _⟩ := get_inode_ref_spec hge
        by_cases hself : k.offset = current
        · rw [build_path_loop_self hge hobj hself] at h
          cases h
          rfl
        · cases hdec : utf8DecodeList pl with
          | none => rw [build_path_loop_badUtf8 hge hobj hself hdec] at h; cases h
          | some name =>
            rw [build_path_loop_continue hge hobj hself hdec] at h
            exact ih h

/-! ## Provenance of emitted lines -/

theorem walkLeafItems_mem_lines {root : FsNode} {fuel : Nat} :
    ∀ {items : List FsLeafItem} {line : List Char},
      line ∈ (walkLeafItems root fuel items).lines →
      ∃ it ∈ items, walkLeafItem root fuel it = .emit line := by
  intro items
  induction items with
  | nil => intro line h; simp [walkLeafItems] at h
  | cons it rest ih =>
    intro line h
    cases hwl : walkLeafItem root fuel it with
    | skip =>
      simp only [walkLeafItems, hwl] at h
      obtain ⟨it', hm, he⟩ := ih h
      exact ⟨it', List.mem_cons_of_mem _ hm, he⟩
    | emit l =>
      simp only [walkLeafItems, hwl] at h
      rcases List.mem_cons.mp h with rfl | h'
      · exact ⟨it, List.mem_cons_self _ _, hwl⟩
      · obtain ⟨it', hm, he⟩ := ih h'
        exact ⟨it', List.mem_cons_of_mem _ hm, he⟩
    | fail e => simp [walkLeafItems, hwl] at h
    | spin => simp [walkLeafItems, hwl] at h

mutual

theorem walk_fs_tree_mem_lines :
    ∀ {root : FsNode} {fuel : Nat} {t : FsNode} {line : List Char},
      line ∈ (walk_fs_tree root fuel t).lines →
      ∃ it ∈ allItems t, walkLeafItem root fuel it = .emit line
  | root, fuel, .leaf items, line, h => by
    simp only [walk_fs_tree] at h
    simpa [allItems] using walkLeafItems_mem_lines h
  | root, fuel, .node children, line, h => by
    simp only [walk_fs_tree] at h
    simpa [allItems] using walkChildren_mem_lines h

theorem walkChildren_mem_lines :
    ∀ {root : FsNode} {fuel : Nat} {l : List (Option FsNode)} {line : List Char},
      line ∈ (walkChildren root fuel l).lines →
      ∃ it ∈ allItemsChildren l, walkLeafItem root fuel it = .emit line
  | root, fuel, [], line, h => by simp [walkChildren] at h
  | root, fuel, none :: rest, line, h => by simp [walkChildren] at h
  | root, fuel, some child :: rest, line, h => by
    simp only [walkChildren] at h
    cases hw : walk_fs_tree root fuel child with
    | mk lines stop =>
      rw [hw] at h
      cases stop with
      | done =>
        simp only [List.mem_append] at h
        rcases h with h | h
        · obtain ⟨it, hm, he⟩ := walk_fs_tree_mem_lines (by rw [hw]; exact h)
          exact ⟨it, by simp [allItemsChildren, hm], he⟩
        · obtain ⟨it, hm, he⟩ := walkChildren_mem_lines h
          exact ⟨it, by simp [allItemsChildren, hm], he⟩
      | fail e =>
        obtain ⟨it, hm, he⟩ := walk_fs_tree_mem_lines (by rw [hw]; exact h)
        exact ⟨it, by simp [allItemsChildren, hm], he⟩
      | spin =>
        obtain ⟨it, hm, he⟩ := walk_fs_tree_mem_lines (by rw [hw]; exact h)
        exact ⟨it, by simp [allItemsChildren, hm], he⟩

end

/-- What an emitted line is made of: a regular-file dir item's decoded
basename appended to a successfully reconstructed prefix, after the
`filename=` tag. -/
theorem walkLeafItem_emit {root : FsNode} {fuel : Nat} {it : FsLeafItem}
    {line : List Char} (h : walkLeafItem root fuel it = .emit line) :
    it.key.ty = BTRFS_DIR_ITEM_KEY ∧ readU8 it.payload 29 = BTRFS_FT_REG_FILE ∧
    ∃ name p, utf8DecodeList (dirNameBytes it.payload) = some name ∧
      build_path_loop root fuel it.key.objectid [] = .ok p ∧
      line = filenameTag ++ p ++ name := by
  unfold walkLeafItem at h
  by_cases h1 : it.key.ty ≠ BTRFS_DIR_ITEM_KEY
  · rw [if_pos h1] at h; cases h
  · push_neg at h1
    rw [if_neg (by simp [h1])] at h
    by_cases h2 : readU8 it.payload 29 ≠ BTRFS_FT_REG_FILE
    · rw [if_pos h2] at h; cases h
    · push_neg at h2
      rw [if_neg (by simp [h2])] at h
      cases hdec : utf8DecodeList (dirNameBytes it.payload) with
      | none => simp only [hdec] at h; cases h
      | some name =>
        cases hloop : build_path_loop root fuel it.key.objectid [] with
        | ok p =>
          simp only [hdec, hloop, ItemRes.emit.injEq] at h
          exact ⟨h1, h2, name, p, rfl, rfl, h.symm⟩
        | err e => simp only [hdec, hloop] at h; cases h
        | spin => simp only [hdec, hloop] at h; cases h

/-! ## UTF-8 round trip -/

set_option maxRecDepth 100000 in
/-- A decoded scalar's trailing bytes are no longer than the input. -/
theorem utf8Step_length {b : Nat} {rest : List Nat} {c : Char}
    {rest' : List Nat} (h : utf8Step b rest = some (c, rest')) :
    rest'.length ≤ rest.length := by
  unfold utf8Step at h
  by_cases h1 : b < 0x80
  · rw [if_pos h1] at h; cases h; exact le_refl _
  · rw [if_neg h1] at h
    by_cases h2 : b < 0xC2
    · rw [if_pos h2] at h; cases h
    · rw [if_neg h2] at h
      by_cases h3 : b < 0xE0
      · rw [if_pos h3] at h
        cases rest with
        | nil => cases h
        | cons c1 rest1 =>
          have h' : (if isCont c1 then
              some (Char.ofNat ((b - 0xC0) * 0x40 + contVal c1), rest1)
            else none) = some (c, rest') := h
          by_cases hc : isCont c1
          · rw [if_pos hc] at h'
            cases h'
            simp only [List.length_cons]
            omega
          · rw [if_neg hc] at h'; cases h'
      · rw [if_neg h3] at h
        by_cases h4 : b < 0xF0
        · rw [if_pos h4] at h
          cases rest with
          | nil => cases h
          | cons c1 r1 =>
            cases r1 with
            | nil => cases h
            | cons c2 rest2 =>
              have h' : (if isCont c1 ∧ isCont c2 ∧ (b = 0xE0 → 0xA0 ≤ c1) ∧
                  (b = 0xED → c1 < 0xA0) then
                  some (Char.ofNat ((b - 0xE0) * 0x1000 + contVal c1 * 0x40 +
                    contVal c2), rest2)
                else none) = some (c, rest') := h
              split_ifs at h'
              · cases h'
                simp only [List.length_cons]
                omega
        · rw [if_neg h4] at h
          by_cases h5 : b < 0xF5
          · rw [if_pos h5] at h
            cases rest with
            | nil => cases h
            | cons c1 r1 =>
              cases r1 with
              | nil => cases h
              | cons c2 r2 =>
                cases r2 with
                | nil => cases h
                | cons c3 rest3 =>
                  have h' : (if isCont c1 ∧ isCont c2 ∧ isCont c3 ∧
                      (b = 0xF0 → 0x90 ≤ c1) ∧ (b = 0xF4 → c1 < 0x90) then
                      some (Char.ofNat ((b - 0xF0) * 0x40000 + contVal c1 * 0x1000 +
                        contVal c2 * 0x40 + contVal c3), rest3)
                    else none) = some (c, rest') := h
                  split_ifs at h'
                  · cases h'
                    simp only [List.length_cons]
                    omega
          · rw [if_neg h5] at h; cases h

/-- Any fuel at least the byte count decodes identically. -/
theorem utf8DecodeAux_fuel :
    ∀ (f1 : Nat) {l : List Nat} (f2 : Nat), l.length ≤ f1 → l.length ≤ f2 →
      utf8DecodeAux f1 l = utf8DecodeAux f2 l := by
  intro f1
  induction f1 with
  | zero =>
    intro l f2 h1 _
    have hl : l = [] := List.length_eq_zero.mp (Nat.le_zero.mp h1)
    subst hl
    cases f2 <;> rfl
  | succ g1 ih =>
    intro l f2 h1 h2
    cases l with
    | nil => cases f2 <;> rfl
    | cons b rest =>
      cases f2 with
      | zero => simp at h2
      | succ g2 =>
        cases hstep : utf8Step b rest with
        | none => simp only [utf8DecodeAux, hstep]
        | some p =>
          obtain ⟨c, rest'⟩ := p
          have hlen := utf8Step_length hstep
          have h1' : rest'.length ≤ g1 := by
            simp only [List.length_cons] at h1; omega
          have h2' : rest'.length ≤ g2 := by
            simp only [List.length_cons] at h2; omega
          simp only [utf8DecodeAux, hstep]
          rw [ih g2 h1' h2']

/-- The one-scalar unfolding of `utf8DecodeList`. -/
theorem utf8DecodeList_cons (b : Nat) (rest : List Nat) :
    utf8DecodeList (b :: rest) =
      match utf8Step b rest with
      | none => none
      | some (c, rest') =>
        match utf8DecodeList rest' with
        | none => none
        | some cs => some (c :: cs) := by
  unfold utf8DecodeList
  cases hstep : utf8Step b rest with
  | none => simp only [List.length_cons, utf8DecodeAux, hstep]
  | some p =>
    obtain ⟨c, rest'⟩ := p
    have hlen := utf8Step_length hstep
    simp only [List.length_cons, utf8DecodeAux, hstep]
    rw [utf8DecodeAux_fuel rest.length rest'.length hlen (le_refl _)]

/-- A character's scalar value is below the surrogate range or above it
and below `0x110000` (the `Char` validity invariant). -/
theorem char_toNat_valid (c : Char) :
    c.toNat < 0xD800 ∨ (0xDFFF < c.toNat ∧ c.toNat < 0x110000) := c.valid

/-- Decoding one encoded character consumes exactly its encoding and
returns the character. -/
theorem utf8Step_encodeChar (c : Char) (rest : List Nat) :
    ∃ b tail, utf8EncodeChar c = b :: tail ∧
      utf8Step b (tail ++ rest) = some (c, rest) := by
  have hval := char_toNat_valid c
  unfold utf8EncodeChar
  by_cases h1 : c.toNat < 0x80
  · rw [if_pos h1]
    refine ⟨c.toNat, [], rfl, ?_⟩
    unfold utf8Step
    rw [if_pos h1, Char.ofNat_toNat]
    rfl
  · rw [if_neg h1]
    by_cases h2 : c.toNat < 0x800
    · rw [if_pos h2]
      refine ⟨0xC0 + c.toNat / 0x40, [0x80 + c.toNat % 0x40], rfl, ?_⟩
      show utf8Step (0xC0 + c.toNat / 0x40) ((0x80 + c.toNat % 0x40) :: rest) =
        some (c, rest)
      unfold utf8Step
      rw [if_neg (by omega), if_neg (by omega), if_pos (by omega)]
      show (if isCont (0x80 + c.toNat % 0x40) then
          some (Char.ofNat ((0xC0 + c.toNat / 0x40 - 0xC0) * 0x40 +
            contVal (0x80 + c.toNat % 0x40)), rest)
        else none) = some (c, rest)
      rw [if_pos (by unfold isCont; omega)]
      have harg : (0xC0 + c.toNat / 0x40 - 0xC0) * 0x40 +
          contVal (0x80 + c.toNat % 0x40) = c.toNat := by
        unfold contVal; omega
      rw [harg, Char.ofNat_toNat]
    · rw [if_neg h2]
      by_cases h3 : c.toNat < 0x10000
      · rw [if_pos h3]
        refine ⟨0xE0 + c.toNat / 0x1000,
          [0x80 + c.toNat / 0x40 % 0x40, 0x80 + c.toNat % 0x40], rfl, ?_⟩
        show utf8Step (0xE0 + c.toNat / 0x1000)
          ((0x80 + c.toNat / 0x40 % 0x40) :: (0x80 + c.toNat % 0x40) :: rest) =
          some (c, rest)
        unfold utf8Step
        rw [if_neg (by omega), if_neg (by omega), if_neg (by omega),
          if_pos (by omega)]
        show (if isCont (0x80 + c.toNat / 0x40 % 0x40) ∧
            isCont (0x80 + c.toNat % 0x40) ∧
            (0xE0 + c.toNat / 0x1000 = 0xE0 → 0xA0 ≤ 0x80 + c.toNat / 0x40 % 0x40) ∧
            (0xE0 + c.toNat / 0x1000 = 0xED → 0x80 + c.toNat / 0x40 % 0x40 < 0xA0)
          then some (Char.ofNat ((0xE0 + c.toNat / 0x1000 - 0xE0) * 0x1000 +
              contVal (0x80 + c.toNat / 0x40 % 0x40) * 0x40 +
              contVal (0x80 + c.toNat % 0x40)), rest)
          else none) = some (c, rest)
        rw [if_pos (by unfold isCont; omega)]
        have harg : (0xE0 + c.toNat / 0x1000 - 0xE0) * 0x1000 +
            contVal (0x80 + c.toNat / 0x40 % 0x40) * 0x40 +
            contVal (0x80 + c.toNat % 0x40) = c.toNat := by
          unfold contVal; omega
        rw [harg, Char.ofNat_toNat]
      · rw [if_neg h3]
        have h4 : c.toNat < 0x110000 := by omega
        refine ⟨0xF0 + c.toNat / 0x40000,
          [0x80 + c.toNat / 0x1000 % 0x40, 0x80 + c.toNat / 0x40 % 0x40,
            0x80 + c.toNat % 0x40], rfl, ?_⟩
        show utf8Step (0xF0 + c.toNat / 0x40000)
          ((0x80 + c.toNat / 0x1000 % 0x40) :: (0x80 + c.toNat / 0x40 % 0x40) ::
            (0x80 + c.toNat % 0x40) :: rest) = some (c, rest)
        unfold utf8Step
        rw [if_neg (by omega), if_neg (by omega), if_neg (by omega),
          if_neg (by omega), if_pos (by omega)]
        show (if isCont (0x80 + c.toNat / 0x1000 % 0x40) ∧
            isCont (0x80 + c.toNat / 0x40 % 0x40) ∧
            isCont (0x80 + c.toNat % 0x40) ∧
            (0xF0 + c.toNat / 0x40000 = 0xF0 → 0x90 ≤ 0x80 + c.toNat / 0x1000 % 0x40) ∧
            (0xF0 + c.toNat / 0x40000 = 0xF4 → 0x80 + c.toNat / 0x1000 % 0x40 < 0x90)
          then some (Char.ofNat ((0xF0 + c.toNat / 0x40000 - 0xF0) * 0x40000 +
              contVal (0x80 + c.toNat / 0x1000 % 0x40) * 0x1000 +
              contVal (0x80 + c.toNat / 0x40 % 0x40) * 0x40 +
              contVal (0x80 + c.toNat % 0x40)), rest)
          else none) = some (c, rest)
        rw [if_pos (by unfold isCont; omega)]
        have harg : (0xF0 + c.toNat / 0x40000 - 0xF0) * 0x40000 +
            contVal (0x80 + c.toNat / 0x1000 % 0x40) * 0x1000 +
            contVal (0x80 + c.toNat / 0x40 % 0x40) * 0x40 +
            contVal (0x80 + c.toNat % 0x40) = c.toNat := by
          unfold contVal; omega
        rw [harg, Char.ofNat_toNat]

/-- Strict UTF-8 decoding inverts encoding: the bytes the program
prints for any of its strings are valid UTF-8 and decode back to the
same characters. -/
theorem utf8_roundtrip : ∀ cs : List Char, utf8DecodeList (utf8Encode cs) = some cs
  | [] => rfl
  | c :: cs => by
    have hsplit : utf8Encode (c :: cs) = utf8EncodeChar c ++ utf8Encode cs := by
      simp [utf8Encode]
    obtain ⟨b, tail, henc, hstep⟩ := utf8Step_encodeChar c (utf8Encode cs)
    rw [hsplit, henc]
    show utf8DecodeList (b :: (tail ++ utf8Encode cs)) = some (c :: cs)
    rw [utf8DecodeList_cons]
    simp only [hstep, utf8_roundtrip cs]

/-! ## Claim C8 (counterexample and amended statement) -/

/-- C8 counterexample: on `exC8Tree` — whose only flaw is an empty
inode-ref name for directory inode 300 — the walk completes and emits
`filename=//b`, a path with an empty segment between separators. -/
theorem path_empty_segment_cex :
    walk_fs_tree exC8Tree 2 exC8Tree =
      ⟨[filenameTag ++ ['/', '/', 'b']], .done⟩ ∧
    hasDoubleSlash ['/', '/', 'b'] = true :=
  ⟨rfl, rfl⟩

/-- C8 amended: every emitted line is `filename=` followed by a path
that — unconditionally — begins with `/` and whose UTF-8 encoding (the
bytes the program prints) is valid; the path has no empty segment
between separators *provided* every non-self-parent inode-ref name in
the tree decodes to a nonempty slash-free string and every dir-item
basename is slash-free (the code does not reject empty or
slash-containing names, see the counterexample). -/
theorem emitted_path_shape_amended (root : FsNode) (fuel : Nat) :
    ∀ line ∈ (walk_fs_tree root fuel root).lines,
      ∃ p, line = filenameTag ++ p ∧ p.head? = some '/' ∧
        (utf8DecodeList (utf8Encode p)).isSome = true ∧
        (goodTreeB root = true → hasDoubleSlash p = false) := by
  intro line hline
  obtain ⟨it, hmem, hemit⟩ := walk_fs_tree_mem_lines hline
  obtain ⟨hty, hreg, name, p, hdec, hloop, hline2⟩ := walkLeafItem_emit hemit
  have hhead := build_path_loop_ok_head hloop
  refine ⟨p ++ name, by rw [hline2, List.append_assoc], ?_, ?_, ?_⟩
  · rw [List.head?_append, hhead]
    rfl
  · rw [utf8_roundtrip]
    rfl
  · intro hg
    have hshape := build_path_loop_shape hg fuel it.key.objectid [] p accOk_nil hloop
    have hdirname := goodTree_dirName hg hmem hty hdec
    apply hasDoubleSlash_append hshape.2.1 (hasDoubleSlash_of_slashFree hdirname)
    right
    intro hh
    exact hdirname '/' (List.mem_of_mem_head? (by rw [hh]; simp)) rfl

/-- Witness for the amended C8 on `exTree`, whose one emitted line is
`filename=/d/b`. -/
theorem emitted_path_shape_amended_witness :
    ∃ p, filenameTag ++ ['/', 'd', '/', 'b'] = filenameTag ++ p ∧
      p.head? = some '/' ∧ (utf8DecodeList (utf8Encode p)).isSome = true ∧
      (goodTreeB exTree = true → hasDoubleSlash p = false) :=
  emitted_path_shape_amended exTree 2
    (filenameTag ++ ['/', 'd', '/', 'b']) (by decide)

end BtrfsWalk
